import Mathlib

/-!
# vcsstore: the URL router of `client/router.go` and the command dispatch of `cmd/vcsstore`

A shallow embedding of the routing layer of vcsstore and of the subcommand
dispatch of its command-line program, with the properties of the two path codecs
(clone URL, tree path), of route matching and building, and of dispatch.

Go strings are byte sequences: a string is a list of bytes, a byte a natural number
below 256.  The bytes that the code tests are written as numbers: `/` is 47, `.` is
46, `%` is 37, `$` is 36, `+` is 43, the space is 32 and the newline is 10.

The hooks, the route table and `main` are embedded from the repository.  The
functions of the Go standard library that the hooks call (`strings.Replace`,
`strings.TrimPrefix`, `url.QueryEscape`, `url.QueryUnescape`, `filepath.Clean`) are
embedded from their Go sources.  The router is built with the package `mux`, which
is not part of the repository: the matching and the building of a route are embedded
from the regular expressions that `mux` compiles the path templates of `NewRouter`
into.
-/

namespace Vcsstore

/-! ## Go strings -/

/-- A Go string: a sequence of bytes. -/
abbrev GoString := List Nat

/-- Every element is a byte. -/
def IsBytes (s : GoString) : Prop := ∀ b ∈ s, b < 256

instance (s : GoString) : Decidable (IsBytes s) := by
  unfold IsBytes; infer_instance

/-- The bytes (UTF-8) of a string literal. -/
def bytes (s : String) : GoString :=
  s.toList.flatMap fun c => (String.utf8EncodeChar c).map UInt8.toNat

/-! ## `strings.Replace(s, old, new, -1)` and `strings.TrimPrefix` -/

/-- The scan of `strings.Replace` with `n = -1` for a non-empty `old`: the leftmost
occurrence of `old` is replaced by `new` and the scan resumes right after it; `skip`
counts the bytes of a replaced occurrence that are still to be passed over. -/
def replaceLoop (old new : GoString) : Nat → GoString → GoString
  | _, [] => []
  | skip + 1, _ :: s => replaceLoop old new skip s
  | 0, c :: s =>
    if old.isPrefixOf (c :: s) then new ++ replaceLoop old new (old.length - 1) s
    else c :: replaceLoop old new 0 s

/-- Go `strings.Replace(s, old, new, -1)`: every non-overlapping occurrence of `old`
in `s`, leftmost first, replaced by `new`.  Both calls of the router pass a non-empty
`old`; the rune-wise insertion Go performs for an empty `old` is not needed and `s`
is returned for it. -/
def stringsReplace (s old new : GoString) : GoString :=
  if old = [] then s else replaceLoop old new 0 s

/-- Go `strings.TrimPrefix(s, pre)`: `s` without the leading `pre` when it has
it, else `s`. -/
def stringsTrimPrefix (s pre : GoString) : GoString :=
  if pre.isPrefixOf s then s.drop pre.length else s

/-! ## `url.QueryEscape` and `url.QueryUnescape` -/

/-- Go `shouldEscape(c, encodeQueryComponent)`: letters, digits and `-`, `_`, `.`,
`~` are kept, every other byte is escaped. -/
def shouldEscape (c : Nat) : Bool :=
  if (97 ≤ c ∧ c ≤ 122) ∨ (65 ≤ c ∧ c ≤ 90) ∨ (48 ≤ c ∧ c ≤ 57) then false
  else if c = 45 ∨ c = 95 ∨ c = 46 ∨ c = 126 then false
  else true

/-- The table `"0123456789ABCDEF"` of Go `net/url`. -/
def upperhex : GoString :=
  [48, 49, 50, 51, 52, 53, 54, 55, 56, 57, 65, 66, 67, 68, 69, 70]

/-- Go `escape(s, encodeQueryComponent)`: a space becomes `+`, a byte to escape
becomes `%` and its two upper-case hexadecimal digits, any other byte is kept. -/
def escape : GoString → GoString
  | [] => []
  | c :: s =>
    if c = 32 then 43 :: escape s
    else if shouldEscape c then
      37 :: upperhex.getD (c >>> 4) 0 :: upperhex.getD (c &&& 15) 0 :: escape s
    else c :: escape s

/-- Go `url.QueryEscape`. -/
def QueryEscape (s : GoString) : GoString := escape s

/-- Go `ishex`. -/
def ishex (c : Nat) : Bool :=
  (48 ≤ c ∧ c ≤ 57) ∨ (97 ≤ c ∧ c ≤ 102) ∨ (65 ≤ c ∧ c ≤ 70)

/-- Go `unhex`. -/
def unhex (c : Nat) : Nat :=
  if 48 ≤ c ∧ c ≤ 57 then c - 48
  else if 97 ≤ c ∧ c ≤ 102 then c - 97 + 10
  else if 65 ≤ c ∧ c ≤ 70 then c - 65 + 10
  else 0

/-- Go `unescape(s, encodeQueryComponent)`: `%XY` with two hexadecimal digits is the
byte `unhex X << 4 | unhex Y`, `+` is a space, any other byte is kept.  A `%` that is
not followed by two hexadecimal digits is an `EscapeError`, which carries the
offending text (at most three bytes). -/
def unescape : GoString → Except GoString GoString
  | [] => .ok []
  | c :: s =>
    if c = 37 then
      match s with
      | a :: b :: t =>
        if ishex a && ishex b then
          match unescape t with
          | .ok r => .ok (((unhex a <<< 4 ||| unhex b) % 256) :: r)
          | .error e => .error e
        else .error [37, a, b]
      | _ => .error (37 :: s)
    else if c = 43 then
      match unescape s with
      | .ok r => .ok (32 :: r)
      | .error e => .error e
    else
      match unescape s with
      | .ok r => .ok (c :: r)
      | .error e => .error e

/-- Go `url.QueryUnescape`: the pair of the result and the error; the result is the
empty string when there is an error. -/
def QueryUnescape (s : GoString) : GoString × Option GoString :=
  match unescape s with
  | .ok r => (r, none)
  | .error e => ([], some e)

/-! ## Route variables -/

/-- A Go `map[string]string` of route variables. -/
abbrev Vars := String → Option GoString

/-- The empty map. -/
def Vars.empty : Vars := fun _ => none

/-- Go `m[k]`: the value at `k`, the empty string when `k` is absent. -/
def Vars.get (m : Vars) (k : String) : GoString := (m k).getD []

/-- Go `m[k] = x`. -/
def Vars.set (m : Vars) (k : String) (x : GoString) : Vars :=
  fun j => if j = k then some x else m j

/-- Go `delete(m, k)`. -/
def Vars.delete (m : Vars) (k : String) : Vars :=
  fun j => if j = k then none else m j

/-! ## The clone-URL hooks of `NewRouter` -/

/-- The closure `unescapeRepoVars` of `NewRouter`: `CloneURL` is set to the query
unescaping of `CloneURLEscaped` with every `$` replaced by `%2F`, and
`CloneURLEscaped` is deleted.  The error of `url.QueryUnescape` is discarded
(`match.Vars["CloneURL"], _ = ...`). -/
def unescapeRepoVars (vars : Vars) : Vars :=
  let esc := stringsReplace (vars.get "CloneURLEscaped") (bytes "$") (bytes "%2F")
  ((vars.set "CloneURL" (QueryUnescape esc).1).delete "CloneURLEscaped")

/-- The closure `escapeRepoVars` of `NewRouter`: `CloneURLEscaped` is set to the
query escaping of `CloneURL` with every `%2F` replaced by `$`, and `CloneURL` is
deleted. -/
def escapeRepoVars (vars : Vars) : Vars :=
  let esc := QueryEscape (vars.get "CloneURL")
  ((vars.set "CloneURLEscaped" (stringsReplace esc (bytes "%2F") (bytes "$"))).delete
    "CloneURL")


/-! ## `filepath.Clean` -/

/-- The inner loop of the `..` case of Go `Clean`: from index `w`, step back while
`w > dotdot` and the byte at `w` is not a separator. -/
def backtrackLoop (out : GoString) (dotdot : Nat) : Nat → Nat
  | 0 => 0
  | w + 1 =>
    if w + 1 > dotdot ∧ out.getD (w + 1) 0 ≠ 47 then backtrackLoop out dotdot w else w + 1

/-- The `can backtrack` case of Go `Clean` (`out.w--`, then the inner loop): the
buffer cut back to the last separator, or to `dotdot`. -/
def backtrack (out : GoString) (dotdot : Nat) : GoString :=
  out.take (backtrackLoop out dotdot (out.length - 1))

/-- The main loop of Go `Clean` on Unix.  `path` is the input still to read
(`path[r:]`), `out` the bytes written so far (the live part `buf[:w]` of the lazy
buffer, so `out.w` is `out.length`), `dotdot` the index where `..` must stop.  Every
iteration reads at least one byte, so `len(path)` iterations are enough: the first
argument bounds the number of iterations. -/
def cleanLoop (rooted : Bool) : Nat → GoString → GoString → Nat → GoString
  | 0, _, out, _ => out
  | _ + 1, [], out, _ => out
  | fuel + 1, c :: rest, out, dotdot =>
    if c = 47 then
      -- empty path element
      cleanLoop rooted fuel rest out dotdot
    else if c = 46 ∧ (rest = [] ∨ rest.head? = some 47) then
      -- . element
      cleanLoop rooted fuel rest out dotdot
    else if c = 46 ∧ rest.head? = some 46 ∧
        (rest.tail = [] ∨ rest.tail.head? = some 47) then
      -- .. element: remove to last separator
      if out.length > dotdot then
        cleanLoop rooted fuel rest.tail (backtrack out dotdot) dotdot
      else if !rooted then
        let out1 := (if out.length > 0 then out ++ [47] else out) ++ [46, 46]
        cleanLoop rooted fuel rest.tail out1 out1.length
      else cleanLoop rooted fuel rest.tail out dotdot
    else
      -- real path element: add slash if needed, copy element
      let out1 :=
        if (rooted ∧ out.length ≠ 1) ∨ (¬ rooted ∧ out.length ≠ 0) then out ++ [47] else out
      cleanLoop rooted fuel ((c :: rest).dropWhile (· ≠ 47))
        (out1 ++ (c :: rest).takeWhile (· ≠ 47)) dotdot

/-- Go `filepath.Clean` on Unix (separator `/`, no volume name): the shortest path
equivalent to `path` by purely lexical processing. -/
def Clean (path : GoString) : GoString :=
  if path = [] then [46]
  else
    let rooted := path.head? = some 47
    let out :=
      if rooted then cleanLoop true path.length path.tail [47] 1
      else cleanLoop false path.length path [] 0
    -- Turn empty string into "."
    if out = [] then [46] else out

/-! ## The tree-path hooks of `NewRouter` -/

/-- The closure `cleanTreeVars` of `NewRouter`: the `Path` variable without one
leading `/`, cleaned; when the result is empty or `.`, `Path` is set to `.`. -/
def cleanTreeVars (vars : Vars) : Vars :=
  let path := Clean (stringsTrimPrefix (vars.get "Path") (bytes "/"))
  if path = [] ∨ path = bytes "." then vars.set "Path" (bytes ".")
  else vars.set "Path" path

/-- The closure `prepareTreeVars` of `NewRouter`: a `Path` equal to `.` becomes the
empty string, any other becomes `/` followed by the cleaned path. -/
def prepareTreeVars (vars : Vars) : Vars :=
  if vars.get "Path" = bytes "." then vars.set "Path" []
  else vars.set "Path" (bytes "/" ++ Clean (vars.get "Path"))

/-! ## The `mux` path templates

The router is built with the `mux` package, which is a dependency and not part of
the repository.  What `NewRouter` relies on is embedded here: `mux` compiles a path
template into an anchored regular expression, a route under a subrouter has the
template of its parent followed by its own, routes are tried in the order of their
registration and the first that matches is the result. -/

/-- The pattern of a placeholder.  The route table uses two: `[^/]+`, which is also
what `mux` takes for a placeholder that gives none, and `(?:/.*)*`. -/
inductive VarPattern where
  | segment
  | treeSuffix
deriving DecidableEq

/-- Whether the whole string matches the pattern (`^patt$`).  `[^/]+` is a non-empty
string without `/`.  `(?:/.*)*` is a sequence of blocks, each a `/` followed by bytes
other than the newline (`.` does not match a newline in Go): the empty string, or a
string that starts with `/` and has no newline. -/
def VarPattern.accepts : VarPattern → GoString → Bool
  | .segment, s => !s.isEmpty && !s.contains 47
  | .treeSuffix, s => s.isEmpty || (s.head? == some 47 && !s.contains 10)

/-- A placeholder `{name:patt}` of a template with the literal text before it. -/
structure Placeholder where
  raw : GoString
  name : String
  patt : VarPattern

/-- A parsed path template: the placeholders, each with the literal before it, and
the literal after the last one. -/
structure PathTemplate where
  vars : List Placeholder
  rest : GoString

/-- The string without the literal `lit` at its start, if it starts with it. -/
def dropLiteral (lit s : GoString) : Option GoString :=
  if lit.isPrefixOf s then some (s.drop lit.length) else none

/-- The match of the regular expression that `mux` builds for a path template,
`^raw₁(patt₁)raw₂(patt₂)…rest$`, with `[/]?` before the `$` under `strictSlash`; the
result is the captured values in order.  A `[^/]+` group is greedy and what follows it
in the templates of the route table starts with `/` or is the end, so it captures the
longest run of bytes other than `/`.  A `(?:/.*)*` group closes its template and
captures the whole remaining text. -/
def matchVars : List Placeholder → GoString → Bool → GoString →
    Option (List (String × GoString))
  | [], rest, strictSlash, s =>
    if s = rest ∨ (strictSlash = true ∧ s = rest ++ [47]) then some [] else none
  | p :: ps, rest, strictSlash, s =>
    match dropLiteral p.raw s with
    | none => none
    | some t =>
      match p.patt with
      | .segment =>
        let v := t.takeWhile (· ≠ 47)
        if v = [] then none
        else
          match matchVars ps rest strictSlash (t.dropWhile (· ≠ 47)) with
          | none => none
          | some caps => some ((p.name, v) :: caps)
      | .treeSuffix =>
        if ps.isEmpty ∧ rest = [] ∧ VarPattern.accepts .treeSuffix t = true then
          some [(p.name, t)]
        else none

/-- Whether `mux` cuts the final `/` of the template (`endSlash` of
`newRouteRegexp`): under `strictSlash`, when the template ends with `/`. -/
def PathTemplate.endSlash (t : PathTemplate) (strictSlash : Bool) : Bool :=
  strictSlash && t.rest.getLast? == some 47

/-- The literal after the last placeholder as `mux` compiles it: without its final
`/` under `endSlash`. -/
def PathTemplate.tail (t : PathTemplate) (strictSlash : Bool) : GoString :=
  if t.endSlash strictSlash then t.rest.dropLast else t.rest

/-- The match of a path against a template (`routeRegexp.Match` and the captures of
`setMatch`). -/
def PathTemplate.matchPath (t : PathTemplate) (strictSlash : Bool) (path : GoString) :
    Option (List (String × GoString)) :=
  matchVars t.vars (t.tail strictSlash) strictSlash path

/-- The variables of a match: `m.Vars[name] = value` for every capture. -/
def varsOfCaptures : List (String × GoString) → Vars
  | [] => Vars.empty
  | (k, x) :: caps => (varsOfCaptures caps).set k x

/-- The reverse template filled with the values of the variables; `none` when a
variable has no value (`mux: missing route variable`). -/
def fillVars : List Placeholder → Vars → Option GoString
  | [], _ => some []
  | p :: ps, values =>
    match values p.name, fillVars ps values with
    | some x, some r => some (p.raw ++ x ++ r)
    | _, _ => none

/-- The method `url` of a `mux` route regexp: the filled reverse template.  It is an
error when a variable is missing, and when the result does not match the regular
expression of the template and some value does not match the pattern of its
placeholder. -/
def PathTemplate.url (t : PathTemplate) (strictSlash : Bool) (values : Vars) :
    Option GoString :=
  match fillVars t.vars values with
  | none => none
  | some filled =>
    let rv := filled ++ t.tail strictSlash ++ (if t.endSlash strictSlash then [47] else [])
    if (t.matchPath strictSlash rv).isSome then some rv
    else if t.vars.any (fun p => !p.patt.accepts (values.get p.name)) then none
    else some rv

/-! ## The templates as regular expressions

The languages of the regular expressions that `mux` compiles the templates into;
the match of the embedding is proved to be the membership in them. -/

/-- The language of `[^/]+`: the non-empty strings without `/`. -/
def segmentLang : Language Nat := {w | w ≠ [] ∧ 47 ∉ w}

/-- The language of `.*` in a Go regular expression: the strings without newline. -/
def dotStarLang : Language Nat := {w | 10 ∉ w}

/-- The language of `(?:/.*)*`: the iteration of a `/` followed by `.*`. -/
def treeSuffixLang : Language Nat := KStar.kstar (({[47]} : Language Nat) * dotStarLang)

/-- The language of the pattern of a placeholder. -/
def VarPattern.lang : VarPattern → Language Nat
  | .segment => segmentLang
  | .treeSuffix => treeSuffixLang

/-- The language of the end of the regular expression of a template: `rest$`, and
`rest[/]?$` under `strictSlash`. -/
def endLang (rest : GoString) (strictSlash : Bool) : Language Nat :=
  {w | w = rest ∨ (strictSlash = true ∧ w = rest ++ [47])}

/-- The language of the regular expression `^raw₁(patt₁)raw₂(patt₂)…rest$` of a
template, with `[/]?` before the `$` under `strictSlash`. -/
def templateLang : List Placeholder → GoString → Bool → Language Nat
  | [], rest, strictSlash => endLang rest strictSlash
  | p :: ps, rest, strictSlash =>
    ({p.raw} : Language Nat) * (p.patt.lang * templateLang ps rest strictSlash)

/-- The shape of the templates of the route table: what follows a `[^/]+`
placeholder starts with `/` or is the end of the template, and a `(?:/.*)*`
placeholder closes its template. -/
def wellShaped : List Placeholder → GoString → Bool
  | [], _ => true
  | p :: ps, rest =>
    (match p.patt with
      | .segment =>
        (match ps with
          | [] => rest.isEmpty || rest.head? == some 47
          | q :: _ => q.raw.head? == some 47)
      | .treeSuffix => ps.isEmpty && rest.isEmpty) && wellShaped ps rest

/-- A named route of the router, with what it takes from the routes above it: the
full template, the hooks to run after a match (its own, then those of the routes
above) and the hooks to run before a build (those of the routes above, then its
own). -/
structure Route where
  name : String
  methods : List String
  template : PathTemplate
  strictSlash : Bool
  postMatch : List (Vars → Vars)
  buildVars : List (Vars → Vars)

/-- The match of a request against a route: the method is one of the methods of the
route, the path matches the template, and the post-match hooks are run on the
captured variables. -/
def Route.matchRequest (r : Route) (method : String) (path : GoString) : Option Vars :=
  if method ∈ r.methods then
    match r.template.matchPath r.strictSlash path with
    | none => none
    | some caps => some (r.postMatch.foldl (fun v f => f v) (varsOfCaptures caps))
  else none

/-- The method `URL` of a `mux` route, reduced to the path: the build hooks are run
on the variables and the template is filled. -/
def Route.URL (r : Route) (vars : Vars) : Option GoString :=
  r.template.url r.strictSlash (r.buildVars.foldl (fun v f => f v) vars)

/-! ## `NewRouter`, `Match` and `URLTo` -/

/-- The seven route names. -/
def RouteRepo : String := "repo"
/-- See `RouteRepo`. -/
def RouteRepoBranch : String := "repo.branch"
/-- See `RouteRepo`. -/
def RouteRepoCommit : String := "repo.commit"
/-- See `RouteRepo`. -/
def RouteRepoRevision : String := "repo.rev"
/-- See `RouteRepo`. -/
def RouteRepoTag : String := "repo.tag"
/-- See `RouteRepo`. -/
def RouteRepoTreeEntry : String := "repo.tree-entry"
/-- See `RouteRepo`. -/
def RouteRoot : String := "root"

/-- The template `repoPath`: `/repos/{VCS}/{CloneURLEscaped:[^/]+}`. -/
def repoPath : List Placeholder :=
  [⟨bytes "/repos/", "VCS", .segment⟩, ⟨bytes "/", "CloneURLEscaped", .segment⟩]

/-- The template `commitPath`: `/commits/{CommitID}`. -/
def commitPath : List Placeholder :=
  [⟨bytes "/commits/", "CommitID", .segment⟩]

/-- The router of `NewRouter`: the seven named routes in the order in which `mux`
tries them, all under `StrictSlash(true)` and with method `GET`.  The routes of the
subrouter `repo` carry the hooks `unescapeRepoVars` and `escapeRepoVars` of its
prefix route; the tree-entry route under the subrouter `commit` has its own hooks
`cleanTreeVars` and `prepareTreeVars` too. -/
def NewRouter : List Route :=
  [ ⟨RouteRoot, ["GET"], ⟨[], bytes "/"⟩, true, [], []⟩,
    ⟨RouteRepo, ["GET"], ⟨repoPath, []⟩, true, [unescapeRepoVars], [escapeRepoVars]⟩,
    ⟨RouteRepoBranch, ["GET"], ⟨repoPath ++ [⟨bytes "/branches/", "Branch", .segment⟩], []⟩,
      true, [unescapeRepoVars], [escapeRepoVars]⟩,
    ⟨RouteRepoRevision, ["GET"], ⟨repoPath ++ [⟨bytes "/revs/", "RevSpec", .segment⟩], []⟩,
      true, [unescapeRepoVars], [escapeRepoVars]⟩,
    ⟨RouteRepoTag, ["GET"], ⟨repoPath ++ [⟨bytes "/tags/", "Tag", .segment⟩], []⟩,
      true, [unescapeRepoVars], [escapeRepoVars]⟩,
    ⟨RouteRepoCommit, ["GET"], ⟨repoPath ++ commitPath, []⟩,
      true, [unescapeRepoVars], [escapeRepoVars]⟩,
    ⟨RouteRepoTreeEntry, ["GET"],
      ⟨repoPath ++ commitPath ++ [⟨bytes "/tree", "Path", .treeSuffix⟩], []⟩,
      true, [cleanTreeVars, unescapeRepoVars], [escapeRepoVars, prepareTreeVars]⟩ ]

/-- The first route of the list that matches the request, with its variables. -/
def matchRoutes : List Route → String → GoString → Option (String × Vars)
  | [], _, _ => none
  | r :: rs, method, path =>
    match r.matchRequest method path with
    | some vars => some (r.name, vars)
    | none => matchRoutes rs method path

/-- The method `Match` of the router on a request with the given method and URL
path: the name of the matched route and the route variables, `none` when no route
matches. -/
def Router.Match (r : List Route) (method : String) (path : GoString) :
    Option (String × Vars) :=
  matchRoutes r method path

/-- The method `Get` of the router: the route registered under the name. -/
def Router.Get (r : List Route) (name : String) : Option Route :=
  r.find? (fun x => x.name == name)

/-- The method `URLTo` of the router, reduced to the path of the URL it returns.
`none` stands for the panic: `URLTo` panics when the route does not exist and when
`mux` reports an error. -/
def Router.URLTo (r : List Route) (route : String) (vars : Vars) : Option GoString :=
  match Router.Get r route with
  | none => none
  | some x => x.URL vars

/-! ## The command `vcsstore`: `main` and the table `subcommands` -/

/-- The handlers of the table `subcommands`. -/
inductive Handler where
  | serveCmd
  | repoCmd
deriving DecidableEq

/-- An entry of the table `subcommands`. -/
structure subcommand where
  Name : String
  Description : String
  Run : Handler
deriving DecidableEq

/-- The table `subcommands`. -/
def subcommands : List subcommand :=
  [ ⟨"serve", "start an HTTP server to serve VCS repository data", .serveCmd⟩,
    ⟨"repo", "display information about a repository", .repoCmd⟩ ]

/-- What `main` does, as seen from outside: what it writes to standard error, the
handler it calls and the exit of the process. -/
inductive Event where
  /-- The first `Fprintln` of `flag.Usage`: the description, the usage line and
  `The commands are:`. -/
  | usageHeader
  /-- The line of `flag.Usage` for an entry of `subcommands`:
  `Fprintf(os.Stderr, "    %-14s %s\n", c.Name, c.Description)`. -/
  | subcommandLine (name description : String)
  /-- The second `Fprintln` of `flag.Usage`, up to `The global options are:`. -/
  | usageFooter
  /-- The output of `flag.PrintDefaults()`. -/
  | printDefaults
  /-- The line `vcsstore: unknown subcommand %q`. -/
  | unknownSubcommand (subcmd : String)
  /-- The line `Run "vcsstore -h" for usage.` -/
  | usageHint
  /-- The error line that the package `flag` writes for a flag that it cannot
  parse, before it calls `flag.Usage`. -/
  | flagError
  /-- The call `c.Run(extraArgs)`. -/
  | run (handler : Handler) (args : List String)
  /-- The call `os.Exit(status)`. -/
  | exit (status : Nat)
deriving DecidableEq

/-- The outcome of `flag.Parse()` on the command line.  The package `flag` is not
part of the repository; what `main` relies on is that `flag.Parse()` either parses
the flags and leaves the positional arguments `flag.Args()`, or calls the installed
`flag.Usage`: at once for `-h` and `-help`, after it has written an error line for a
flag that it cannot parse. -/
inductive Parsed where
  | args (positional : List String)
  | help
  | badFlag
deriving DecidableEq

/-- The function `flag.Usage` that `main` installs: the header, one line for every
entry of `subcommands`, the footer, the defaults of the flags, and `os.Exit(1)`. -/
def flagUsage : List Event :=
  [Event.usageHeader] ++ subcommands.map (fun c => Event.subcommandLine c.Name c.Description)
    ++ [Event.usageFooter, Event.printDefaults, Event.exit 1]

/-- The loop of `main` over the table: the first entry whose `Name` is `subcmd` is
run with `extraArgs` and `main` returns; when the table is exhausted, the two lines
about the unknown subcommand are written and the process exits with status 1. -/
def dispatch : List subcommand → String → List String → List Event
  | [], subcmd, _ => [Event.unknownSubcommand subcmd, Event.usageHint, Event.exit 1]
  | c :: cs, subcmd, extraArgs =>
    if c.Name = subcmd then [Event.run c.Run extraArgs] else dispatch cs subcmd extraArgs

/-- The function `main`, on the outcome of its call `flag.Parse()`.  When
`flag.Parse()` calls `flag.Usage`, the process exits there, after the error line if
the package wrote one.  When it leaves the positional arguments: without any
(`flag.NArg() == 0`), `main` calls `flag.Usage()`, which exits; otherwise the first
is the subcommand `flag.Arg(0)`, the others are `extraArgs`, and the loop over the
table runs. -/
def main (parsed : Parsed) : List Event :=
  match parsed with
  | .help => flagUsage
  | .badFlag => Event.flagError :: flagUsage
  | .args [] => flagUsage
  | .args (subcmd :: extraArgs) => dispatch subcommands subcmd extraArgs

/-! ## Notions of the specification -/

/-- The high hexadecimal digit that `escape` writes for a byte. -/
def hexHi (c : Nat) : Nat := upperhex.getD (c >>> 4) 0

/-- The low hexadecimal digit that `escape` writes for a byte. -/
def hexLo (c : Nat) : Nat := upperhex.getD (c &&& 15) 0

/-- The replacement of `escapeRepoVars` on an escaped string, byte by byte of the
original: the escape `%2F` of `/` becomes `$`, every other escape is kept. -/
def encodeBytes : GoString → GoString
  | [] => []
  | c :: u =>
    if c = 47 then 36 :: encodeBytes u
    else if c = 32 then 43 :: encodeBytes u
    else if shouldEscape c then 37 :: hexHi c :: hexLo c :: encodeBytes u
    else c :: encodeBytes u

/-- Whether a string has an invalid percent sequence: a `%` that is not followed by
two hexadecimal digits. -/
def hasInvalidPercent : GoString → Bool
  | [] => false
  | c :: s => (c == 37 && !(ishex (s.getD 0 0) && ishex (s.getD 1 0))) || hasInvalidPercent s

/-- The segments of a path: the pieces between the separators `/`. -/
def splitSlash : GoString → List GoString
  | [] => [[]]
  | c :: s =>
    if c = 47 then [] :: splitSlash s
    else
      match splitSlash s with
      | [] => [[c]]
      | x :: xs => (c :: x) :: xs

/-- The path made of the segments, with a separator `/` between two. -/
def joinSlash : List GoString → GoString
  | [] => []
  | [x] => x
  | x :: y :: xs => x ++ 47 :: joinSlash (y :: xs)

/-- A path with one more segment at its end. -/
def pushComp (out x : GoString) : GoString :=
  if out = [] then x else out ++ 47 :: x

/-- Lexical cleaning of a relative path, segment by segment.  The state is the
number of leading `..` segments of the result and the segments after them: an empty
segment and `.` change nothing, `..` removes the last segment if there is one and is
kept otherwise, any other segment is added. -/
def stepComp (st : Nat × List GoString) (comp : GoString) : Nat × List GoString :=
  if comp = [] ∨ comp = [46] then st
  else if comp = [46, 46] then
    if st.2 = [] then (st.1 + 1, []) else (st.1, st.2.dropLast)
  else (st.1, st.2 ++ [comp])

/-- The state of the lexical cleaning after all the segments of a relative path. -/
def cleanComps (comps : List GoString) : Nat × List GoString :=
  comps.foldl stepComp (0, [])

/-- The segments of the cleaned path: the leading `..` segments, then the others. -/
def compsOf (st : Nat × List GoString) : List GoString :=
  List.replicate st.1 [46, 46] ++ st.2

/-- The cleaned path of a state: `.` when there is no segment. -/
def renderComps (st : Nat × List GoString) : GoString :=
  if compsOf st = [] then [46] else joinSlash (compsOf st)

/-- The output buffer of `Clean` that stands for a state of the cleaning. -/
def bufferOf (st : Nat × List GoString) : GoString :=
  (compsOf st).foldl pushComp []

/-- A value for a placeholder of one segment: not empty and without `/`. -/
def IsSegmentValue (s : GoString) : Prop := s ≠ [] ∧ 47 ∉ s

instance (s : GoString) : Decidable (IsSegmentValue s) := by
  unfold IsSegmentValue; infer_instance

/-- A canonical tree path: `.`, or a relative path all of whose segments are proper
names (not empty, not `.`, not `..`), so that it has no leading, trailing or doubled
separator. -/
def IsCanonicalTreePath (p : GoString) : Prop :=
  p = [46] ∨ ∀ x ∈ splitSlash p, x ≠ [] ∧ x ≠ [46] ∧ x ≠ [46, 46]

instance (p : GoString) : Decidable (IsCanonicalTreePath p) := by
  unfold IsCanonicalTreePath; infer_instance

/-- A clean relative path: it does not begin with `/`, does not end with `/`, and
has no empty segment and no `.` segment. -/
def IsCleanRelative (p : GoString) : Prop :=
  p.head? ≠ some 47 ∧ p.getLast? ≠ some 47 ∧ ∀ x ∈ splitSlash p, x ≠ [] ∧ x ≠ [46]

instance (p : GoString) : Decidable (IsCleanRelative p) := by
  unfold IsCleanRelative; infer_instance

/-- Whether the lexical cleaning of the relative path ascends above its root: the
cleaned path has a leading `..` segment. -/
def AscendsAboveRoot (t : GoString) : Prop := 0 < (cleanComps (splitSlash t)).1

instance (t : GoString) : Decidable (AscendsAboveRoot t) := by
  unfold AscendsAboveRoot; infer_instance

/-- What follows the repository prefix `/repos/{VCS}/{CloneURLEscaped}` in a path:
the text from the separator after the second segment on. -/
def repoRest (p : GoString) : GoString :=
  match dropLiteral (bytes "/repos/") p with
  | none => []
  | some t =>
    match dropLiteral (bytes "/") (t.dropWhile (· ≠ 47)) with
    | none => []
    | some t2 => t2.dropWhile (· ≠ 47)

/-- What follows the commit prefix `/commits/{CommitID}` in the rest of a path. -/
def commitRest (s : GoString) : GoString :=
  match dropLiteral (bytes "/commits/") s with
  | none => []
  | some t => t.dropWhile (· ≠ 47)

/-- The only route that can match a path, read off the path: from its second byte,
from the second byte of what follows the repository prefix, and from what follows
the commit prefix. -/
def classify (p : GoString) : String :=
  if p.getD 1 0 = 0 then RouteRoot
  else if (repoRest p).getD 1 0 = 0 then RouteRepo
  else if (repoRest p).getD 1 0 = 98 then RouteRepoBranch
  else if (repoRest p).getD 1 0 = 114 then RouteRepoRevision
  else if (repoRest p).getD 1 0 = 116 then RouteRepoTag
  else if commitRest (repoRest p) = [] ∨ commitRest (repoRest p) = [47] then RouteRepoCommit
  else RouteRepoTreeEntry

/-- The variable sets of the seven routes, as the build takes them and the match
returns them: `VCS`, `Branch`, `RevSpec`, `Tag` and `CommitID` are segment values,
`CloneURL` is a non-empty string of bytes, `Path` is a canonical tree path. -/
inductive ValidVars : String → Vars → Prop where
  | root : ValidVars RouteRoot Vars.empty
  | repo (vcs u : GoString) : IsSegmentValue vcs → u ≠ [] → IsBytes u →
      ValidVars RouteRepo ((Vars.empty.set "VCS" vcs).set "CloneURL" u)
  | branch (vcs u b : GoString) : IsSegmentValue vcs → u ≠ [] → IsBytes u →
      IsSegmentValue b →
      ValidVars RouteRepoBranch (((Vars.empty.set "VCS" vcs).set "CloneURL" u).set "Branch" b)
  | rev (vcs u r : GoString) : IsSegmentValue vcs → u ≠ [] → IsBytes u →
      IsSegmentValue r →
      ValidVars RouteRepoRevision
        (((Vars.empty.set "VCS" vcs).set "CloneURL" u).set "RevSpec" r)
  | tag (vcs u t : GoString) : IsSegmentValue vcs → u ≠ [] → IsBytes u →
      IsSegmentValue t →
      ValidVars RouteRepoTag (((Vars.empty.set "VCS" vcs).set "CloneURL" u).set "Tag" t)
  | commit (vcs u c : GoString) : IsSegmentValue vcs → u ≠ [] → IsBytes u →
      IsSegmentValue c →
      ValidVars RouteRepoCommit
        (((Vars.empty.set "VCS" vcs).set "CloneURL" u).set "CommitID" c)
  | tree (vcs u c p : GoString) : IsSegmentValue vcs → u ≠ [] → IsBytes u →
      IsSegmentValue c → IsCanonicalTreePath p →
      ValidVars RouteRepoTreeEntry
        ((((Vars.empty.set "VCS" vcs).set "CloneURL" u).set "CommitID" c).set "Path" p)

/-! ## Lemmas on the query codec -/

theorem bytes_dollar : bytes "$" = [36] := by decide

theorem bytes_pct2F : bytes "%2F" = [37, 50, 70] := by decide

set_option maxRecDepth 100000 in
theorem hex_facts : ∀ c, c < 256 →
    ishex (hexHi c) = true ∧ ishex (hexLo c) = true ∧
    hexHi c ≠ 37 ∧ hexHi c ≠ 36 ∧ hexLo c ≠ 37 ∧ hexLo c ≠ 36 ∧
    hexHi c ≠ 47 ∧ hexLo c ≠ 47 ∧
    ((hexHi c = 50 ∧ hexLo c = 70) ↔ c = 47) ∧
    (unhex (hexHi c) <<< 4 ||| unhex (hexLo c)) % 256 = c := by
  decide

theorem shouldEscape_false {c : Nat} (h : ¬ shouldEscape c = true) :
    c ≠ 37 ∧ c ≠ 36 ∧ c ≠ 43 ∧ c ≠ 47 ∧ c ≠ 32 := by
  refine ⟨?_, ?_, ?_, ?_, ?_⟩ <;> (intro hc; subst hc; revert h; decide)

theorem unescape_plus (s : GoString) :
    unescape (43 :: s) =
      match unescape s with
      | .ok r => .ok (32 :: r)
      | .error e => .error e := by
  rw [unescape.eq_def]; simp

theorem unescape_plain (c : Nat) (s : GoString) (h1 : c ≠ 37) (h2 : c ≠ 43) :
    unescape (c :: s) =
      match unescape s with
      | .ok r => .ok (c :: r)
      | .error e => .error e := by
  rw [unescape.eq_def]; simp [h1, h2]

theorem unescape_pct (a b : Nat) (s : GoString) (ha : ishex a = true) (hb : ishex b = true) :
    unescape (37 :: a :: b :: s) =
      match unescape s with
      | .ok r => .ok (((unhex a <<< 4 ||| unhex b) % 256) :: r)
      | .error e => .error e := by
  rw [unescape.eq_def]; simp [ha, hb]

theorem escape_cons_space (u : GoString) : escape (32 :: u) = 43 :: escape u := by
  simp [escape]

theorem escape_cons_hex (c : Nat) (u : GoString) (h32 : c ≠ 32) (h : shouldEscape c = true) :
    escape (c :: u) = 37 :: hexHi c :: hexLo c :: escape u := by
  simp [escape, h32, h, hexHi, hexLo]

theorem escape_cons_plain (c : Nat) (u : GoString) (h : ¬ shouldEscape c = true) :
    escape (c :: u) = c :: escape u := by
  simp [escape, (shouldEscape_false h).2.2.2.2, h]

theorem replace_escape (u : GoString) (hu : IsBytes u) :
    replaceLoop [37, 50, 70] [36] 0 (escape u) = encodeBytes u := by
  induction u with
  | nil => rfl
  | cons c u ih =>
    have hc : c < 256 := hu c (List.mem_cons_self _ _)
    have ih := ih (fun b hb => hu b (List.mem_cons_of_mem _ hb))
    obtain ⟨-, -, h3, -, h5, -, -, -, h7, -⟩ := hex_facts c hc
    by_cases c32 : c = 32
    · subst c32
      rw [escape_cons_space]
      simp [replaceLoop, encodeBytes, ih]
    · by_cases he : shouldEscape c = true
      · rw [escape_cons_hex c u c32 he]
        by_cases c47 : c = 47
        · subst c47
          have e1 : hexHi 47 = 50 := by decide
          have e2 : hexLo 47 = 70 := by decide
          simp [replaceLoop, encodeBytes, ih, e1, e2]
        · have hne : ¬ (50 = hexHi c ∧ 70 = hexLo c) := fun h => c47 (h7.1 ⟨h.1.symm, h.2.symm⟩)
          simp [replaceLoop, encodeBytes, ih, c47, c32, he, h3.symm, h5.symm, hne]
      · rw [escape_cons_plain c u he]
        obtain ⟨p1, -, -, p4, -⟩ := shouldEscape_false he
        simp [replaceLoop, encodeBytes, ih, p1.symm, p4, c32, he]

theorem unescape_encodeBytes (u : GoString) (hu : IsBytes u) :
    unescape (replaceLoop [36] [37, 50, 70] 0 (encodeBytes u)) = .ok u := by
  induction u with
  | nil => rfl
  | cons c u ih =>
    have hc : c < 256 := hu c (List.mem_cons_self _ _)
    have ih := ih (fun b hb => hu b (List.mem_cons_of_mem _ hb))
    obtain ⟨h1, h2, h3, h4, h5, h6, -, -, -, h8⟩ := hex_facts c hc
    by_cases c47 : c = 47
    · subst c47
      have e1 : ishex 50 = true := by decide
      have e2 : ishex 70 = true := by decide
      have e3 : (unhex 50 <<< 4 ||| unhex 70) % 256 = 47 := by decide
      simp only [encodeBytes, if_true, replaceLoop, List.isPrefixOf, beq_self_eq_true,
        Bool.and_self, List.length_singleton, Nat.sub_self, List.cons_append, List.nil_append]
      rw [unescape_pct _ _ _ e1 e2, ih, e3]
    · by_cases c32 : c = 32
      · subst c32
        simp [encodeBytes, replaceLoop, unescape_plus, ih]
      · by_cases he : shouldEscape c = true
        · simp [encodeBytes, replaceLoop, c47, c32, he, h4.symm, h6.symm,
            unescape_pct _ _ _ h1 h2, ih, h8]
        · obtain ⟨p1, p2, p3, -, -⟩ := shouldEscape_false he
          simp [encodeBytes, replaceLoop, c47, c32, he, p2.symm, unescape_plain _ _ p1 p3, ih]

/-- Decoding inverts encoding on the clone-URL strings. -/
theorem QueryUnescape_encode (u : GoString) (hu : IsBytes u) :
    QueryUnescape (stringsReplace (stringsReplace (QueryEscape u) (bytes "%2F") (bytes "$"))
      (bytes "$") (bytes "%2F")) = (u, none) := by
  simp only [bytes_dollar, bytes_pct2F, stringsReplace, QueryEscape, QueryUnescape]
  simp [replace_escape u hu, unescape_encodeBytes u hu]

theorem ishex_ne_pct (a : Nat) (h : ishex a = true) : a ≠ 37 := by
  intro e
  subst e
  revert h
  decide

theorem hasInvalidPercent_cons_hex (a : Nat) (s : GoString) (h : ishex a = true) :
    hasInvalidPercent (a :: s) = hasInvalidPercent s := by
  simp [hasInvalidPercent, ishex_ne_pct a h]

/-- The error of `unescape` is the presence of an invalid percent sequence. -/
theorem unescape_error_iff (n : Nat) : ∀ s : GoString, s.length ≤ n →
    (hasInvalidPercent s = true ↔ ∃ e, unescape s = .error e) := by
  induction n using Nat.strong_induction_on with
  | _ n ih =>
    intro s hs
    cases s with
    | nil => simp [hasInvalidPercent, unescape]
    | cons c s =>
      by_cases hc : c = 37
      · subst hc
        cases s with
        | nil => simp [hasInvalidPercent, unescape, ishex]
        | cons a s =>
          cases s with
          | nil =>
            have : ishex (0 : Nat) = false := by decide
            simp [hasInvalidPercent, unescape, this]
          | cons b t =>
            by_cases hab : ishex a = true ∧ ishex b = true
            · have hlen : t.length ≤ n - 3 := by simp at hs; omega
              have hrec := ih (n - 3) (by simp at hs; omega) t hlen
              rw [unescape_pct a b t hab.1 hab.2]
              have h1 : hasInvalidPercent (37 :: a :: b :: t) = hasInvalidPercent t := by
                rw [hasInvalidPercent, hasInvalidPercent_cons_hex a _ hab.1,
                  hasInvalidPercent_cons_hex b _ hab.2]
                simp [hab.1, hab.2]
              rw [h1, hrec]
              cases unescape t <;> simp
            · have h1 : hasInvalidPercent (37 :: a :: b :: t) = true := by
                rw [hasInvalidPercent]
                have : (ishex a && ishex b) = false := by
                  simpa [Bool.and_eq_true] using hab
                simp [this]
              have h2 : unescape (37 :: a :: b :: t) = .error [37, a, b] := by
                rw [unescape.eq_def]
                have : (ishex a && ishex b) = false := by
                  simpa [Bool.and_eq_true] using hab
                simp [this]
              rw [h1, h2]
              simp
      · have hlen : s.length ≤ n - 1 := by simp at hs; omega
        have hrec := ih (n - 1) (by simp at hs; omega) s hlen
        have h1 : hasInvalidPercent (c :: s) = hasInvalidPercent s := by
          simp [hasInvalidPercent, hc]
        rw [h1, hrec]
        by_cases h43 : c = 43
        · subst h43
          rw [unescape_plus]
          cases unescape s <;> simp
        · rw [unescape_plain c s hc h43]
          cases unescape s <;> simp

/-! ## Lemmas on segments -/

theorem splitSlash_ne_nil (s : GoString) : splitSlash s ≠ [] := by
  cases s with
  | nil => simp [splitSlash]
  | cons c s =>
    by_cases h : c = 47
    · simp [splitSlash, h]
    · simp only [splitSlash, h, if_false]
      split <;> simp

theorem splitSlash_cons_sep (s : GoString) : splitSlash (47 :: s) = [] :: splitSlash s := by
  simp [splitSlash]

theorem splitSlash_cons_other (c : Nat) (s : GoString) (h : c ≠ 47) :
    splitSlash (c :: s) = (c :: (splitSlash s).headD []) :: (splitSlash s).tail := by
  have hne := splitSlash_ne_nil s
  simp only [splitSlash, h, if_false]
  cases hs : splitSlash s with
  | nil => exact absurd hs hne
  | cons x xs => simp

/-- The first segment is the run of bytes before the first separator, the other
segments are those of what follows that separator. -/
theorem splitSlash_eq (r : GoString) :
    splitSlash r =
      r.takeWhile (· ≠ 47) :: (splitSlash (r.dropWhile (· ≠ 47))).tail := by
  induction r with
  | nil => simp [splitSlash]
  | cons c s ih =>
    by_cases h : c = 47
    · subst h
      simp [splitSlash_cons_sep]
    · rw [splitSlash_cons_other c s h, ih]
      simp [List.takeWhile, List.dropWhile, h]

theorem splitSlash_dropWhile (r : GoString) :
    splitSlash (r.dropWhile (· ≠ 47)) = [] :: (splitSlash (r.dropWhile (· ≠ 47))).tail := by
  induction r with
  | nil => simp [splitSlash]
  | cons c s ih =>
    by_cases h : c = 47
    · subst h
      simp [splitSlash_cons_sep]
    · simpa [List.dropWhile, h] using ih

theorem stepComp_nil (st : Nat × List GoString) : stepComp st [] = st := by
  simp [stepComp]

/-- Reading the first segment, then the rest from its separator on. -/
theorem foldl_stepComp_split (st : Nat × List GoString) (r : GoString) :
    (splitSlash r).foldl stepComp st =
      (splitSlash (r.dropWhile (· ≠ 47))).foldl stepComp
        (stepComp st (r.takeWhile (· ≠ 47))) := by
  rw [splitSlash_eq r, splitSlash_dropWhile r]
  simp [List.foldl, stepComp_nil]

theorem joinSlash_cons (x : GoString) (xs : List GoString) :
    joinSlash (x :: xs) = if xs = [] then x else x ++ 47 :: joinSlash xs := by
  cases xs <;> simp [joinSlash]

/-- Joining the segments of a path gives the path back. -/
theorem joinSlash_splitSlash (p : GoString) : joinSlash (splitSlash p) = p := by
  induction p with
  | nil => simp [splitSlash, joinSlash]
  | cons c s ih =>
    by_cases h : c = 47
    · subst h
      rw [splitSlash_cons_sep, joinSlash_cons]
      simp [splitSlash_ne_nil, ih]
    · rw [splitSlash_cons_other c s h, joinSlash_cons]
      have hne := splitSlash_ne_nil s
      cases hs : splitSlash s with
      | nil => exact absurd hs hne
      | cons x xs =>
        rw [hs, joinSlash_cons] at ih
        by_cases hx : xs = []
        · simp [hx] at ih ⊢
          exact ih
        · simp [hx] at ih ⊢
          exact ih

theorem splitSlash_of_not_mem (x : GoString) (h : 47 ∉ x) : splitSlash x = [x] := by
  induction x with
  | nil => simp [splitSlash]
  | cons c s ih =>
    have hc : c ≠ 47 := fun e => h (by simp [e])
    have hs : 47 ∉ s := fun e => h (List.mem_cons_of_mem _ e)
    rw [splitSlash_cons_other c s hc, ih hs]
    simp

theorem splitSlash_append_sep (x rest : GoString) (h : 47 ∉ x) :
    splitSlash (x ++ 47 :: rest) = x :: splitSlash rest := by
  induction x with
  | nil => simp [splitSlash_cons_sep]
  | cons c s ih =>
    have hc : c ≠ 47 := fun e => h (by simp [e])
    have hs : 47 ∉ s := fun e => h (List.mem_cons_of_mem _ e)
    rw [List.cons_append, splitSlash_cons_other c _ hc, ih hs]
    simp

/-- The segments of a join of segments without separator are these segments. -/
theorem splitSlash_joinSlash (cs : List GoString) (hne : cs ≠ [])
    (h : ∀ x ∈ cs, 47 ∉ x) : splitSlash (joinSlash cs) = cs := by
  induction cs with
  | nil => exact absurd rfl hne
  | cons x xs ih =>
    have hx : 47 ∉ x := h x (List.mem_cons_self _ _)
    rw [joinSlash_cons]
    by_cases hxs : xs = []
    · simp [hxs, splitSlash_of_not_mem x hx]
    · simp only [hxs, if_false]
      rw [splitSlash_append_sep x _ hx, ih hxs (fun y hy => h y (List.mem_cons_of_mem _ hy))]

theorem not_mem_of_mem_splitSlash (p : GoString) : ∀ x ∈ splitSlash p, 47 ∉ x := by
  induction p with
  | nil => simp [splitSlash]
  | cons c s ih =>
    by_cases h : c = 47
    · subst h
      rw [splitSlash_cons_sep]
      intro x hx
      rcases List.mem_cons.1 hx with rfl | hx
      · simp
      · exact ih x hx
    · rw [splitSlash_cons_other c s h]
      have hne := splitSlash_ne_nil s
      cases hs : splitSlash s with
      | nil => exact absurd hs hne
      | cons y ys =>
        rw [hs] at ih
        intro x hx
        simp only [List.headD_cons, List.tail_cons, List.mem_cons] at hx
        rcases hx with rfl | hx
        · have := ih y (List.mem_cons_self _ _)
          simp [h, this]
          exact fun e => h e.symm
        · exact ih x (List.mem_cons_of_mem _ hx)

theorem splitSlash_head_sep (p : GoString) (h : p.head? = some 47) : [] ∈ splitSlash p := by
  cases p with
  | nil => simp at h
  | cons c s =>
    simp at h
    subst h
    simp [splitSlash_cons_sep]

theorem splitSlash_snoc_sep (q : GoString) :
    splitSlash (q ++ [47]) = splitSlash q ++ [[]] := by
  induction q with
  | nil => simp [splitSlash]
  | cons c q ih =>
    by_cases hc : c = 47
    · subst hc
      simp [splitSlash_cons_sep, ih]
    · rw [List.cons_append, splitSlash_cons_other c _ hc, splitSlash_cons_other c _ hc, ih]
      have hne := splitSlash_ne_nil q
      cases hs : splitSlash q with
      | nil => exact absurd hs hne
      | cons y ys => simp

theorem splitSlash_getLast_sep (p : GoString) (h : p.getLast? = some 47) :
    [] ∈ splitSlash p := by
  obtain ⟨q, rfl⟩ := List.getLast?_eq_some_iff.1 h
  rw [splitSlash_snoc_sep]
  simp

/-! ## Lemmas on `filepath.Clean` -/

theorem pushComp_ne_nil (a x : GoString) (hx : x ≠ []) : pushComp a x ≠ [] := by
  unfold pushComp
  split <;> simp [hx]

theorem length_pushComp (a x : GoString) (hx : x ≠ []) : a.length < (pushComp a x).length := by
  unfold pushComp
  have : 0 < x.length := List.length_pos.2 hx
  split
  · next h => subst h; simpa using this
  · simp

theorem length_foldl_pushComp (a : GoString) (xs : List GoString) (h : ∀ x ∈ xs, x ≠ []) :
    a.length ≤ (xs.foldl pushComp a).length := by
  induction xs generalizing a with
  | nil => simp
  | cons x xs ih =>
    have h1 := length_pushComp a x (h x (List.mem_cons_self _ _))
    have h2 := ih (pushComp a x) (fun y hy => h y (List.mem_cons_of_mem _ hy))
    simp only [List.foldl_cons]
    omega

theorem foldl_pushComp_eq (a : GoString) (cs : List GoString) (h : ∀ x ∈ cs, x ≠ []) :
    cs.foldl pushComp a =
      if a = [] then joinSlash cs else if cs = [] then a else a ++ 47 :: joinSlash cs := by
  induction cs generalizing a with
  | nil => by_cases ha : a = [] <;> simp [ha, joinSlash]
  | cons x xs ih =>
    have hx : x ≠ [] := h x (List.mem_cons_self _ _)
    have hp := pushComp_ne_nil a x hx
    rw [List.foldl_cons, ih _ (fun y hy => h y (List.mem_cons_of_mem _ hy)), joinSlash_cons]
    simp only [hp, if_false]
    by_cases ha : a = []
    · subst ha
      by_cases hxs : xs = [] <;> simp [hxs, pushComp]
    · by_cases hxs : xs = [] <;> simp [hxs, pushComp, ha]

theorem backtrackLoop_zero (x : GoString) (h : 47 ∉ x) (k : Nat) (hk : k < x.length) :
    backtrackLoop x 0 k = 0 := by
  induction k with
  | zero => rfl
  | succ k ih =>
    have hmem : x.getD (k + 1) 0 ∈ x := by
      rw [List.getD_eq_getElem _ _ hk]
      exact List.getElem_mem _
    have hne : x.getD (k + 1) 0 ≠ 47 := fun e => h (e ▸ hmem)
    rw [backtrackLoop]
    simp only [hne, ne_eq, not_false_eq_true, and_true, Nat.succ_pos, gt_iff_lt, if_true]
    exact ih (by omega)

theorem backtrackLoop_sep (a x : GoString) (dotdot : Nat) (ha : a ≠ []) (h : 47 ∉ x)
    (hd : dotdot ≤ a.length) (k : Nat) (hk : k ≤ x.length) :
    backtrackLoop (a ++ 47 :: x) dotdot (a.length + k) = a.length := by
  induction k with
  | zero =>
    obtain ⟨n, hn⟩ : ∃ n, a.length = n + 1 :=
      ⟨a.length - 1, by have := List.length_pos.2 ha; omega⟩
    have hget : (a ++ 47 :: x)[n + 1]?.getD 0 = 47 := by
      rw [← hn, List.getElem?_append_right (Nat.le_refl _)]; simp
    simp only [Nat.add_zero, hn]
    rw [backtrackLoop]
    simp [hget]
  | succ k ih =>
    have hk' : k < x.length := hk
    have hget : (a ++ 47 :: x).getD (a.length + k + 1) 0 = x.getD k 0 := by
      simp [List.getD_eq_getElem?_getD, List.getElem?_append_right, Nat.add_assoc]
    have hmem : x.getD k 0 ∈ x := by
      rw [List.getD_eq_getElem _ _ hk']
      exact List.getElem_mem _
    have hne : x.getD k 0 ≠ 47 := fun e => h (e ▸ hmem)
    rw [← Nat.add_assoc, backtrackLoop]
    have hgt : a.length + k + 1 > dotdot := by omega
    simp only [hget, hne, ne_eq, not_false_eq_true, and_self, hgt, if_true]
    exact ih (by omega)

/-- Backtracking removes the last segment and the separator before it. -/
theorem backtrack_pushComp (a x : GoString) (dotdot : Nat) (hx : x ≠ []) (h : 47 ∉ x)
    (hd : dotdot ≤ a.length) : backtrack (pushComp a x) dotdot = a := by
  have hpos : 0 < x.length := List.length_pos.2 hx
  by_cases ha : a = []
  · subst ha
    have hd0 : dotdot = 0 := by simpa using hd
    subst hd0
    simp only [pushComp, if_true, backtrack]
    rw [backtrackLoop_zero x h _ (by omega)]
    simp
  · simp only [pushComp, ha, if_false, backtrack]
    have hl : (a ++ 47 :: x).length - 1 = a.length + x.length := by simp
    rw [hl, backtrackLoop_sep a x dotdot ha h hd _ (le_refl _)]
    simp

theorem cleanLoop_nil (rooted : Bool) (fuel : Nat) (out : GoString) (dotdot : Nat) :
    cleanLoop rooted fuel [] out dotdot = out := by
  cases fuel <;> simp [cleanLoop]

theorem bufferOf_stack (up : Nat) (stack : List GoString) :
    bufferOf (up, stack) = stack.foldl pushComp (bufferOf (up, [])) := by
  simp [bufferOf, compsOf, List.foldl_append]

theorem bufferOf_snoc (up : Nat) (stack : List GoString) (x : GoString) :
    bufferOf (up, stack ++ [x]) = pushComp (bufferOf (up, stack)) x := by
  rw [bufferOf_stack, bufferOf_stack up stack, List.foldl_append]
  rfl

theorem bufferOf_up_succ (up : Nat) :
    bufferOf (up + 1, []) = pushComp (bufferOf (up, [])) [46, 46] := by
  simp [bufferOf, compsOf, List.replicate_succ', List.foldl_append]

theorem length_bufferOf_le (up : Nat) (stack : List GoString) (h : ∀ x ∈ stack, x ≠ []) :
    (bufferOf (up, [])).length ≤ (bufferOf (up, stack)).length := by
  rw [bufferOf_stack up stack]
  exact length_foldl_pushComp _ _ h

theorem takeWhile_eq_nil_iff_sep (s : GoString) :
    s.takeWhile (· ≠ 47) = [] ↔ s = [] ∨ s.head? = some 47 := by
  cases s with
  | nil => simp
  | cons c s =>
    by_cases h : c = 47
    · simp [List.takeWhile, h]
    · simp [List.takeWhile, h]

theorem dropWhile_of_sep (s : GoString) (h : s = [] ∨ s.head? = some 47) :
    s.dropWhile (· ≠ 47) = s := by
  cases s with
  | nil => simp
  | cons c s =>
    have hc : c = 47 := by simpa using h
    simp [List.dropWhile, hc]

theorem takeWhile_cons_ne (c : Nat) (s : GoString) (h : c ≠ 47) :
    (c :: s).takeWhile (· ≠ 47) = c :: s.takeWhile (· ≠ 47) := by
  simp [List.takeWhile, h]

theorem dropWhile_cons_ne (c : Nat) (s : GoString) (h : c ≠ 47) :
    (c :: s).dropWhile (· ≠ 47) = s.dropWhile (· ≠ 47) := by
  simp [List.dropWhile, h]

/-- The loop of `Clean` on a relative path does the cleaning segment by segment. -/
theorem cleanLoop_spec (fuel : Nat) : ∀ (r : GoString) (st : Nat × List GoString),
    r.length ≤ fuel → (∀ x ∈ st.2, x ≠ [] ∧ 47 ∉ x) →
    cleanLoop false fuel r (bufferOf st) (bufferOf (st.1, [])).length =
      bufferOf ((splitSlash r).foldl stepComp st) := by
  induction fuel with
  | zero =>
    intro r st hr _
    have : r = [] := List.length_eq_zero.1 (Nat.le_zero.1 hr)
    subst this
    simp [cleanLoop, splitSlash, stepComp_nil]
  | succ fuel ih =>
    intro r st hr hgood
    cases r with
    | nil => simp [cleanLoop, splitSlash, stepComp_nil]
    | cons c rest =>
      obtain ⟨up, stack⟩ := st
      have hrest : rest.length ≤ fuel := by simpa using hr
      have hne : ∀ x ∈ stack, x ≠ [] := fun x hx => (hgood x hx).1
      rw [cleanLoop]
      by_cases hc : c = 47
      · subst hc
        simp only [if_true, splitSlash_cons_sep, List.foldl_cons, stepComp_nil]
        exact ih rest (up, stack) hrest hgood
      · simp only [hc, if_false]
        rw [foldl_stepComp_split]
        have htake := takeWhile_cons_ne c rest hc
        have hdrop := dropWhile_cons_ne c rest hc
        by_cases hdot : c = 46 ∧ (rest = [] ∨ rest.head? = some 47)
        · -- the segment `.`
          obtain ⟨hc46, hsep⟩ := hdot
          subst hc46
          simp only [true_and, hsep, if_true]
          rw [htake, hdrop, (takeWhile_eq_nil_iff_sep rest).2 hsep, dropWhile_of_sep rest hsep]
          have : stepComp (up, stack) [46] = (up, stack) := by simp [stepComp]
          rw [this]
          exact ih rest (up, stack) hrest hgood
        · simp only [hdot, if_false]
          by_cases hdd : c = 46 ∧ rest.head? = some 46 ∧
              (rest.tail = [] ∨ rest.tail.head? = some 47)
          · -- the segment `..`
            obtain ⟨hc46, hhead, hsep⟩ := hdd
            subst hc46
            cases rest with
            | nil => simp at hhead
            | cons d rest' =>
              have hd : d = 46 := by simpa using hhead
              subst hd
              have hsep' : rest' = [] ∨ rest'.head? = some 47 := by simpa using hsep
              have hrest' : rest'.length ≤ fuel := by
                simp at hrest; omega
              simp only [List.head?_cons, List.tail_cons, hsep', true_and, and_self, if_true]
              rw [htake, hdrop]
              have e1 : (46 :: rest').takeWhile (· ≠ 47) = [46] := by
                rw [takeWhile_cons_ne 46 rest' (by decide),
                  (takeWhile_eq_nil_iff_sep rest').2 hsep']
              have e2 : (46 :: rest').dropWhile (· ≠ 47) = rest' := by
                rw [dropWhile_cons_ne 46 rest' (by decide), dropWhile_of_sep rest' hsep']
              rw [e1, e2]
              by_cases hst : stack = []
              · subst hst
                have hstep : stepComp (up, []) [46, 46] = (up + 1, []) := by simp [stepComp]
                rw [hstep]
                have hbuf : (if (bufferOf (up, [])).length > 0 then bufferOf (up, []) ++ [47]
                    else bufferOf (up, [])) ++ [46, 46] = bufferOf (up + 1, []) := by
                  rw [bufferOf_up_succ, pushComp]
                  by_cases hb : bufferOf (up, []) = []
                  · simp [hb]
                  · have : 0 < (bufferOf (up, [])).length := List.length_pos.2 hb
                    simp [hb, this]
                simp only [gt_iff_lt, lt_self_iff_false, if_false, Bool.not_false, if_true]
                simp only [gt_iff_lt] at hbuf
                rw [hbuf]
                exact ih rest' (up + 1, []) hrest' (by simp)
              · have hstep : stepComp (up, stack) [46, 46] = (up, stack.dropLast) := by
                  simp [stepComp, hst]
                rw [hstep]
                obtain ⟨x, hx⟩ : ∃ x, stack = stack.dropLast ++ [x] :=
                  ⟨stack.getLast hst, (List.dropLast_append_getLast hst).symm⟩
                have hxmem : x ∈ stack := by rw [hx]; simp
                have hgood' : ∀ y ∈ stack.dropLast, y ≠ [] ∧ 47 ∉ y :=
                  fun y hy => hgood y (List.mem_of_mem_dropLast hy)
                have hle := length_bufferOf_le up stack.dropLast (fun y hy => (hgood' y hy).1)
                have hbuf : bufferOf (up, stack) = pushComp (bufferOf (up, stack.dropLast)) x := by
                  conv_lhs => rw [hx]
                  exact bufferOf_snoc up _ x
                have hlt := length_pushComp (bufferOf (up, stack.dropLast)) x (hgood x hxmem).1
                have hgt : (bufferOf (up, stack)).length > (bufferOf (up, [])).length := by
                  rw [hbuf]; omega
                simp only [hgt, if_true]
                have hback : backtrack (bufferOf (up, stack)) (bufferOf (up, [])).length =
                    bufferOf (up, stack.dropLast) := by
                  rw [hbuf]
                  exact backtrack_pushComp _ x _ (hgood x hxmem).1 (hgood x hxmem).2 hle
                rw [hback]
                exact ih rest' (up, stack.dropLast) hrest' hgood'
          · -- a proper segment
            simp only [hdd, if_false]
            have helem_ne : (c :: rest).takeWhile (· ≠ 47) ≠ [] := by rw [htake]; simp
            have helem_sep : 47 ∉ (c :: rest).takeWhile (· ≠ 47) := by
              intro hmem
              have := List.mem_takeWhile_imp hmem
              simp at this
            have h1 : (c :: rest).takeWhile (· ≠ 47) ≠ [46] := by
              rw [htake]
              intro e
              simp only [List.cons.injEq] at e
              exact hdot ⟨e.1, (takeWhile_eq_nil_iff_sep rest).1 e.2⟩
            have h2 : (c :: rest).takeWhile (· ≠ 47) ≠ [46, 46] := by
              rw [htake]
              intro e
              simp only [List.cons.injEq] at e
              obtain ⟨e1, e2⟩ := e
              cases rest with
              | nil => simp at e2
              | cons d rest' =>
                by_cases hd : d = 47
                · simp [List.takeWhile, hd] at e2
                · simp only [List.takeWhile, hd, ne_eq, not_false_eq_true, decide_True,
                    List.cons.injEq] at e2
                  exact hdd ⟨e1, by simp [e2.1],
                    by simpa using (takeWhile_eq_nil_iff_sep rest').1 e2.2⟩
            have hstep : stepComp (up, stack) ((c :: rest).takeWhile (· ≠ 47)) =
                (up, stack ++ [(c :: rest).takeWhile (· ≠ 47)]) := by
              unfold stepComp
              rw [if_neg (not_or.2 ⟨helem_ne, h1⟩), if_neg h2]
            rw [hstep]
            have hbuf : (if (false = true ∧ (bufferOf (up, stack)).length ≠ 1) ∨
                  (¬ false = true ∧ (bufferOf (up, stack)).length ≠ 0)
                then bufferOf (up, stack) ++ [47] else bufferOf (up, stack)) ++
                  (c :: rest).takeWhile (· ≠ 47) =
                bufferOf (up, stack ++ [(c :: rest).takeWhile (· ≠ 47)]) := by
              rw [bufferOf_snoc, pushComp]
              by_cases hb : bufferOf (up, stack) = []
              · simp [hb]
              · simp [hb]
            rw [hbuf]
            have hlen : ((c :: rest).dropWhile (· ≠ 47)).length ≤ fuel := by
              rw [hdrop]
              exact le_trans (List.dropWhile_suffix _).length_le hrest
            refine ih _ (up, stack ++ [(c :: rest).takeWhile (· ≠ 47)]) hlen ?_
            intro y hy
            rcases List.mem_append.1 hy with hy | hy
            · exact hgood y hy
            · simp only [List.mem_singleton] at hy
              subst hy
              exact ⟨helem_ne, helem_sep⟩

/-- The bound on the iterations of the loop of `Clean` is never reached: with any
two bounds that are at least the length of the input, the loop returns the same
buffer. -/
theorem cleanLoop_fuel (rooted : Bool) (n : Nat) : ∀ (m : Nat) (path out : GoString)
    (dotdot : Nat), path.length ≤ n → path.length ≤ m →
    cleanLoop rooted n path out dotdot = cleanLoop rooted m path out dotdot := by
  induction n with
  | zero =>
    intro m path out dotdot hn _
    have : path = [] := List.length_eq_zero.1 (Nat.le_zero.1 hn)
    subst this
    rw [cleanLoop_nil, cleanLoop_nil]
  | succ n ih =>
    intro m path out dotdot hn hm
    cases path with
    | nil => rw [cleanLoop_nil, cleanLoop_nil]
    | cons c rest =>
      cases m with
      | zero => simp at hm
      | succ m =>
        have hrn : rest.length ≤ n := by simpa using hn
        have hrm : rest.length ≤ m := by simpa using hm
        have htn : rest.tail.length ≤ n := by rw [List.length_tail]; omega
        have htm : rest.tail.length ≤ m := by rw [List.length_tail]; omega
        rw [cleanLoop, cleanLoop]
        by_cases hc : c = 47
        · rw [if_pos hc, if_pos hc]
          exact ih m _ _ _ hrn hrm
        · have hdn : ((c :: rest).dropWhile (· ≠ 47)).length ≤ n := by
            rw [dropWhile_cons_ne c rest hc]
            exact le_trans (List.dropWhile_suffix _).length_le hrn
          have hdm : ((c :: rest).dropWhile (· ≠ 47)).length ≤ m := by
            rw [dropWhile_cons_ne c rest hc]
            exact le_trans (List.dropWhile_suffix _).length_le hrm
          rw [if_neg hc, if_neg hc]
          split_ifs
          all_goals first
            | exact ih m _ _ _ hrn hrm
            | exact ih m _ _ _ htn htm
            | exact ih m _ _ _ hdn hdm

theorem stepComp_good (st : Nat × List GoString) (comp : GoString) (hc : 47 ∉ comp)
    (h : ∀ x ∈ st.2, x ≠ [] ∧ 47 ∉ x ∧ x ≠ [46]) :
    ∀ x ∈ (stepComp st comp).2, x ≠ [] ∧ 47 ∉ x ∧ x ≠ [46] := by
  unfold stepComp
  by_cases h1 : comp = [] ∨ comp = [46]
  · rw [if_pos h1]; exact h
  · rw [if_neg h1]
    by_cases h2 : comp = [46, 46]
    · rw [if_pos h2]
      by_cases h3 : st.2 = []
      · rw [if_pos h3]; simp
      · rw [if_neg h3]
        exact fun x hx => h x (List.mem_of_mem_dropLast hx)
    · rw [if_neg h2]
      intro x hx
      rcases List.mem_append.1 hx with hx | hx
      · exact h x hx
      · simp only [List.mem_singleton] at hx
        subst hx
        exact ⟨fun e => h1 (Or.inl e), hc, fun e => h1 (Or.inr e)⟩

theorem foldl_stepComp_good (cs : List GoString) (hcs : ∀ x ∈ cs, 47 ∉ x) :
    ∀ st : Nat × List GoString, (∀ x ∈ st.2, x ≠ [] ∧ 47 ∉ x ∧ x ≠ [46]) →
      ∀ x ∈ (cs.foldl stepComp st).2, x ≠ [] ∧ 47 ∉ x ∧ x ≠ [46] := by
  induction cs with
  | nil => intro st h; exact h
  | cons c cs ih =>
    intro st h
    rw [List.foldl_cons]
    exact ih (fun x hx => hcs x (List.mem_cons_of_mem _ hx)) _
      (stepComp_good st c (hcs c (List.mem_cons_self _ _)) h)

theorem cleanComps_good (t : GoString) :
    ∀ x ∈ (cleanComps (splitSlash t)).2, x ≠ [] ∧ 47 ∉ x ∧ x ≠ [46] :=
  foldl_stepComp_good _ (not_mem_of_mem_splitSlash t) (0, []) (by simp)

theorem compsOf_good (st : Nat × List GoString)
    (h : ∀ x ∈ st.2, x ≠ [] ∧ 47 ∉ x ∧ x ≠ [46]) :
    ∀ x ∈ compsOf st, x ≠ [] ∧ 47 ∉ x ∧ x ≠ [46] := by
  intro x hx
  rcases List.mem_append.1 hx with hx | hx
  · have := List.eq_of_mem_replicate hx
    subst this
    decide
  · exact h x hx

theorem joinSlash_eq_nil (cs : List GoString) (h : ∀ x ∈ cs, x ≠ [])
    (he : joinSlash cs = []) : cs = [] := by
  cases cs with
  | nil => rfl
  | cons x xs =>
    exfalso
    rw [joinSlash_cons] at he
    have hx := h x (List.mem_cons_self _ _)
    by_cases hxs : xs = []
    · simp [hxs] at he; exact hx he
    · simp [hxs] at he

theorem bufferOf_eq_joinSlash (st : Nat × List GoString)
    (h : ∀ x ∈ st.2, x ≠ [] ∧ 47 ∉ x ∧ x ≠ [46]) : bufferOf st = joinSlash (compsOf st) := by
  unfold bufferOf
  rw [foldl_pushComp_eq [] _ (fun x hx => (compsOf_good st h x hx).1)]
  simp

/-- On a relative path `Clean` is the cleaning segment by segment. -/
theorem Clean_relative (t : GoString) (ht : t.head? ≠ some 47) :
    Clean t = renderComps (cleanComps (splitSlash t)) := by
  by_cases hnil : t = []
  · subst hnil
    decide
  · have hspec := cleanLoop_spec t.length t (0, []) (le_refl _) (by simp)
    have hb : bufferOf (0, []) = [] := by simp [bufferOf, compsOf]
    rw [hb] at hspec
    simp only [List.length_nil] at hspec
    have hgood := cleanComps_good t
    unfold Clean
    simp only [hnil, if_false, ht, decide_False, Bool.false_eq_true]
    rw [hspec]
    change (if bufferOf (cleanComps (splitSlash t)) = [] then [46]
      else bufferOf (cleanComps (splitSlash t))) = _
    rw [bufferOf_eq_joinSlash _ hgood]
    unfold renderComps
    by_cases hc : compsOf (cleanComps (splitSlash t)) = []
    · simp [hc, joinSlash]
    · have : joinSlash (compsOf (cleanComps (splitSlash t))) ≠ [] :=
        fun e => hc (joinSlash_eq_nil _ (fun x hx => (compsOf_good _ hgood x hx).1) e)
      simp [hc, this]

theorem foldl_stepComp_proper (cs : List GoString)
    (h : ∀ x ∈ cs, x ≠ [] ∧ x ≠ [46] ∧ x ≠ [46, 46]) :
    ∀ st : Nat × List GoString, cs.foldl stepComp st = (st.1, st.2 ++ cs) := by
  induction cs with
  | nil => intro st; simp
  | cons c cs ih =>
    intro st
    obtain ⟨h1, h2, h3⟩ := h c (List.mem_cons_self _ _)
    have hstep : stepComp st c = (st.1, st.2 ++ [c]) := by
      unfold stepComp
      rw [if_neg (not_or.2 ⟨h1, h2⟩), if_neg h3]
    rw [List.foldl_cons, hstep, ih (fun x hx => h x (List.mem_cons_of_mem _ hx))]
    simp

/-- A path whose segments are all proper names is left as it is by `Clean`. -/
theorem Clean_proper (p : GoString)
    (h : ∀ x ∈ splitSlash p, x ≠ [] ∧ x ≠ [46] ∧ x ≠ [46, 46]) : Clean p = p := by
  have hhead : p.head? ≠ some 47 :=
    fun e => (h [] (splitSlash_head_sep p e)).1 rfl
  rw [Clean_relative p hhead]
  unfold cleanComps renderComps
  rw [foldl_stepComp_proper _ h]
  simp [compsOf, splitSlash_ne_nil, joinSlash_splitSlash]

/-- A join of segments that are not empty, have no separator and are not `.` is a
clean relative path. -/
theorem isCleanRelative_joinSlash (cs : List GoString) (hne : cs ≠ [])
    (h : ∀ x ∈ cs, x ≠ [] ∧ 47 ∉ x ∧ x ≠ [46]) : IsCleanRelative (joinSlash cs) := by
  have hsplit := splitSlash_joinSlash cs hne (fun x hx => (h x hx).2.1)
  refine ⟨?_, ?_, ?_⟩
  · intro e
    have := splitSlash_head_sep _ e
    rw [hsplit] at this
    exact (h [] this).1 rfl
  · intro e
    have := splitSlash_getLast_sep _ e
    rw [hsplit] at this
    exact (h [] this).1 rfl
  · rw [hsplit]
    exact fun x hx => ⟨(h x hx).1, (h x hx).2.2⟩

/-- The path that `Clean` returns for a relative path is `.` or a clean relative
path. -/
theorem Clean_relative_clean (t : GoString) (ht : t.head? ≠ some 47) :
    Clean t = [46] ∨ IsCleanRelative (Clean t) := by
  rw [Clean_relative t ht]
  unfold renderComps
  by_cases hc : compsOf (cleanComps (splitSlash t)) = []
  · left; simp [hc]
  · right
    rw [if_neg hc]
    exact isCleanRelative_joinSlash _ hc (compsOf_good _ (cleanComps_good t))

theorem dot_or_self_ne_nil (x : GoString) : (if x = [] then [46] else x) ≠ [] := by
  by_cases h : x = [] <;> simp [h]

theorem Clean_ne_nil (t : GoString) : Clean t ≠ [] := by
  unfold Clean
  by_cases h : t = []
  · simp [h]
  · simp only [h, if_false]
    exact dot_or_self_ne_nil _

/-! ## Lemmas on route variables and on matching -/

theorem Vars.set_same (m : Vars) (k : String) (x : GoString) : (m.set k x) k = some x := by
  simp [Vars.set]

theorem Vars.get_set_same (m : Vars) (k : String) (x : GoString) : (m.set k x).get k = x := by
  simp [Vars.get, Vars.set]

theorem Vars.get_of_eq_some (m : Vars) (k : String) (x : GoString) (h : m k = some x) :
    m.get k = x := by
  simp [Vars.get, h]

theorem bytes_slash : bytes "/" = [47] := by decide

theorem bytes_dot : bytes "." = [46] := by decide

theorem bytes_dotdot : bytes ".." = [46, 46] := by decide

theorem stringsTrimPrefix_slash_cons (p : GoString) : stringsTrimPrefix (47 :: p) [47] = p := by
  simp [stringsTrimPrefix]

theorem dropLiteral_append (lit s : GoString) : dropLiteral lit (lit ++ s) = some s := by
  simp [dropLiteral]

theorem dropLiteral_eq_some (lit s t : GoString) :
    dropLiteral lit s = some t ↔ s = lit ++ t := by
  unfold dropLiteral
  constructor
  · intro h
    by_cases hp : lit.isPrefixOf s = true
    · rw [if_pos hp] at h
      have h1 := List.prefix_iff_eq_append.1 (List.isPrefixOf_iff_prefix.1 hp)
      simp only [Option.some.injEq] at h
      rw [← h1, h]
    · rw [if_neg hp] at h
      exact absurd h (by simp)
  · intro h
    subst h
    simp

theorem takeWhile_segment (x s : GoString) (hx : 47 ∉ x) (hs : s = [] ∨ s.head? = some 47) :
    (x ++ s).takeWhile (· ≠ 47) = x := by
  have hp : ∀ a ∈ x, (fun b => decide (b ≠ 47)) a = true := by
    intro a ha
    simp only [ne_eq, decide_not, Bool.not_eq_eq_eq_not, Bool.not_true, decide_eq_false_iff_not]
    exact fun e => hx (e ▸ ha)
  rw [List.takeWhile_append_of_pos hp, (takeWhile_eq_nil_iff_sep s).2 hs]
  simp

theorem dropWhile_segment (x s : GoString) (hx : 47 ∉ x) (hs : s = [] ∨ s.head? = some 47) :
    (x ++ s).dropWhile (· ≠ 47) = s := by
  have hp : ∀ a ∈ x, (fun b => decide (b ≠ 47)) a = true := by
    intro a ha
    simp only [ne_eq, decide_not, Bool.not_eq_eq_eq_not, Bool.not_true, decide_eq_false_iff_not]
    exact fun e => hx (e ▸ ha)
  rw [List.dropWhile_append_of_pos hp, dropWhile_of_sep s hs]

/-- A segment placeholder captures a segment value that is followed by a separator
or by the end of the path. -/
theorem matchVars_segment (raw : GoString) (name : String) (ps : List Placeholder)
    (rest : GoString) (ss : Bool) (x s : GoString) (hx : IsSegmentValue x)
    (hs : s = [] ∨ s.head? = some 47) :
    matchVars (⟨raw, name, .segment⟩ :: ps) rest ss (raw ++ (x ++ s)) =
      match matchVars ps rest ss s with
      | none => none
      | some caps => some ((name, x) :: caps) := by
  rw [matchVars]
  simp only [dropLiteral_append]
  rw [takeWhile_segment x s hx.2 hs, dropWhile_segment x s hx.2 hs]
  simp [hx.1]

theorem matchVars_treeSuffix (raw : GoString) (name : String) (ss : Bool) (t : GoString) :
    matchVars [⟨raw, name, .treeSuffix⟩] [] ss (raw ++ t) =
      if VarPattern.accepts .treeSuffix t = true then some [(name, t)] else none := by
  rw [matchVars]
  simp [dropLiteral_append]

theorem matchVars_nil (rest : GoString) (ss : Bool) (s : GoString) :
    matchVars [] rest ss s =
      if s = rest ∨ (ss = true ∧ s = rest ++ [47]) then some [] else none := by
  rw [matchVars]

theorem matchVars_segment_isSome' (raw : GoString) (name : String) (ps : List Placeholder)
    (rest : GoString) (ss : Bool) (s : GoString)
    (h : (matchVars (⟨raw, name, .segment⟩ :: ps) rest ss s).isSome = true) :
    ∃ t, (dropLiteral raw s = some t ∧ t.takeWhile (· ≠ 47) ≠ []) ∧
      (matchVars ps rest ss (t.dropWhile (· ≠ 47))).isSome = true := by
  rw [matchVars] at h
  cases hd : dropLiteral raw s with
  | none => rw [hd] at h; simp at h
  | some t =>
    rw [hd] at h
    simp only at h
    by_cases hv : t.takeWhile (· ≠ 47) = []
    · rw [if_pos hv] at h; simp at h
    · refine ⟨t, ⟨rfl, hv⟩, ?_⟩
      rw [if_neg hv] at h
      cases hm : matchVars ps rest ss (t.dropWhile (· ≠ 47)) with
      | none => rw [hm] at h; simp at h
      | some caps => rfl

/-! ## The match of a template is the membership in the language of its regexp -/

theorem flatten_treeSuffix (L : List (List Nat))
    (h : ∀ y ∈ L, y ∈ ({[47]} : Language Nat) * dotStarLang) :
    L.flatten = [] ∨ (L.flatten.head? = some 47 ∧ 10 ∉ L.flatten) := by
  induction L with
  | nil => left; rfl
  | cons y L ih =>
    right
    obtain ⟨a, ha, b, hb, hab⟩ := Language.mem_mul.1 (h y (List.mem_cons_self _ _))
    have ha' : a = [47] := ha
    have hb' : 10 ∉ b := hb
    subst ha'
    subst hab
    rcases ih (fun z hz => h z (List.mem_cons_of_mem _ hz)) with e | ⟨-, e⟩
    · simp [e, hb']
    · simp [e, hb']

/-- The acceptance by the pattern `(?:/.*)*` is the membership in its language. -/
theorem accepts_treeSuffix_iff (s : GoString) :
    VarPattern.accepts .treeSuffix s = true ↔ s ∈ treeSuffixLang := by
  constructor
  · intro h
    cases s with
    | nil => exact Language.nil_mem_kstar _
    | cons c t =>
      simp only [VarPattern.accepts, List.isEmpty_cons, List.head?_cons, Bool.false_or,
        Bool.and_eq_true, beq_iff_eq, Option.some.injEq, Bool.not_eq_true',
        List.contains_eq_any_beq, List.any_eq_false] at h
      obtain ⟨hc, hnl⟩ := h
      subst hc
      have hmem : (47 :: t) ∈ ({[47]} : Language Nat) * dotStarLang := by
        refine Language.mem_mul.2 ⟨[47], rfl, t, ?_, rfl⟩
        intro h10
        have := hnl 10 (List.mem_cons_of_mem _ h10)
        simp at this
      have := Language.join_mem_kstar (L := [47 :: t]) (by simpa using hmem)
      simpa [treeSuffixLang] using this
  · intro h
    obtain ⟨L, rfl, hL⟩ := Language.mem_kstar.1 h
    rcases flatten_treeSuffix L hL with e | ⟨e1, e2⟩
    · simp [e, VarPattern.accepts]
    · simp [VarPattern.accepts, e1, e2]

/-- The acceptance by the pattern `[^/]+` is the membership in its language. -/
theorem accepts_segment_iff (s : GoString) :
    VarPattern.accepts .segment s = true ↔ s ∈ segmentLang := by
  cases s with
  | nil =>
    simp only [VarPattern.accepts, List.isEmpty_nil, Bool.not_true, Bool.false_and]
    constructor
    · intro h; simp at h
    · intro h; exact absurd rfl h.1
  | cons c t =>
    simp only [VarPattern.accepts, segmentLang, List.isEmpty_cons, Bool.not_false,
      Bool.true_and, Bool.not_eq_true', List.contains_eq_any_beq, List.any_eq_false]
    constructor
    · intro h
      refine ⟨by simp, fun hm => ?_⟩
      have := h 47 hm
      simp at this
    · intro h x hx
      simp only [beq_iff_eq]
      intro e
      exact h.2 (e ▸ hx)

theorem accepts_treeSuffix_append_slash (x : GoString)
    (h : VarPattern.accepts .treeSuffix x = true) :
    VarPattern.accepts .treeSuffix (x ++ [47]) = true := by
  cases x with
  | nil => decide
  | cons c t =>
    simp only [VarPattern.accepts, List.isEmpty_cons, List.head?_cons, Bool.false_or,
      Bool.and_eq_true, beq_iff_eq, Option.some.injEq, Bool.not_eq_true'] at h
    have h2 : 10 ∉ c :: t := by simpa using h.2
    simp only [List.mem_cons, not_or] at h2
    simp [VarPattern.accepts, h.1, h2.2, Ne.symm h2.1]

theorem templateLang_slashLed (p : Placeholder) (ps : List Placeholder) (rest : GoString)
    (ss : Bool) (hp : p.patt = .segment) (h : wellShaped (p :: ps) rest = true) :
    ∀ w ∈ templateLang ps rest ss, w = [] ∨ w.head? = some 47 := by
  intro w hw
  cases ps with
  | nil =>
    simp only [wellShaped, hp, Bool.and_true, Bool.or_eq_true, List.isEmpty_iff,
      beq_iff_eq] at h
    rcases hw with e | ⟨-, e⟩
    · subst e; exact h
    · subst e
      rcases h with h | h
      · subst h; right; rfl
      · right
        cases rest with
        | nil => simp at h
        | cons a r => simpa using h
  | cons q qs =>
    simp only [wellShaped, hp, Bool.and_eq_true, beq_iff_eq] at h
    obtain ⟨a, ha, b, -, hab⟩ := Language.mem_mul.1 hw
    have ha' : a = q.raw := ha
    subst ha' hab
    right
    cases hq : q.raw with
    | nil => rw [hq] at h; simp at h
    | cons c r => rw [hq] at h; simpa using h.1

/-- The match of a template of the shape of the route table is the membership in
the language of the regular expression that `mux` compiles it into. -/
theorem matchVars_iff_lang (ps : List Placeholder) (rest : GoString) (ss : Bool) :
    wellShaped ps rest = true →
    ∀ s : GoString, (matchVars ps rest ss s).isSome = true ↔ s ∈ templateLang ps rest ss := by
  induction ps with
  | nil =>
    intro _ s
    rw [matchVars_nil]
    show _ ↔ (s = rest ∨ (ss = true ∧ s = rest ++ [47]))
    by_cases h : s = rest ∨ (ss = true ∧ s = rest ++ [47])
    · simp [h]
    · rw [if_neg h]; simp [h]
  | cons p ps ih =>
    intro hshape s
    have hshape' : wellShaped ps rest = true := by
      simp only [wellShaped, Bool.and_eq_true] at hshape
      exact hshape.2
    obtain ⟨raw, name, patt⟩ := p
    cases patt with
    | segment =>
      have hled := templateLang_slashLed ⟨raw, name, .segment⟩ ps rest ss rfl hshape
      constructor
      · intro h
        obtain ⟨t, ht, hm⟩ := matchVars_segment_isSome' raw name ps rest ss s h
        rw [(dropLiteral_eq_some _ _ _).1 ht.1]
        refine Language.mem_mul.2 ⟨raw, rfl, t, ?_, rfl⟩
        refine Language.mem_mul.2 ⟨t.takeWhile (· ≠ 47), ⟨ht.2, ?_⟩, t.dropWhile (· ≠ 47),
          (ih hshape' _).1 hm, List.takeWhile_append_dropWhile _ _⟩
        intro hmem
        have := List.mem_takeWhile_imp hmem
        simp at this
      · intro h
        obtain ⟨a, ha, b, hb, hab⟩ := Language.mem_mul.1 h
        obtain ⟨x, hx, w, hw, hxw⟩ := Language.mem_mul.1 hb
        have ha' : a = raw := ha
        subst hab hxw
        rw [ha', matchVars_segment raw name ps rest ss x w hx (hled w hw)]
        have := (ih hshape' w).2 hw
        cases hm : matchVars ps rest ss w with
        | none => rw [hm] at this; simp at this
        | some caps => rfl
    | treeSuffix =>
      simp only [wellShaped, Bool.and_eq_true, List.isEmpty_iff] at hshape
      obtain ⟨⟨hps, hrest⟩, -⟩ := hshape
      subst hps hrest
      constructor
      · intro h
        rw [matchVars] at h
        cases hd : dropLiteral raw s with
        | none => rw [hd] at h; simp at h
        | some t =>
          rw [hd] at h
          simp only [List.isEmpty_nil, true_and] at h
          by_cases hacc : VarPattern.accepts .treeSuffix t = true
          · rw [(dropLiteral_eq_some _ _ _).1 hd]
            refine Language.mem_mul.2 ⟨raw, rfl, t, ?_, rfl⟩
            exact Language.mem_mul.2 ⟨t, (accepts_treeSuffix_iff t).1 hacc, [], Or.inl rfl,
              List.append_nil t⟩
          · rw [if_neg hacc] at h; simp at h
      · intro h
        obtain ⟨a, ha, b, hb, hab⟩ := Language.mem_mul.1 h
        obtain ⟨x, hx, w, hw, hxw⟩ := Language.mem_mul.1 hb
        have ha' : a = raw := ha
        subst hab hxw
        rw [ha']
        have hx' := (accepts_treeSuffix_iff x).2 hx
        have hacc : VarPattern.accepts .treeSuffix (x ++ w) = true := by
          rcases hw with e | ⟨-, e⟩
          · subst e; simpa using hx'
          · subst e; simpa using accepts_treeSuffix_append_slash x hx'
        rw [matchVars_treeSuffix, if_pos hacc]
        rfl

/-- Every route of the table matches the paths of the language of its regular
expression, and no other. -/
theorem matchPath_iff_lang (r : Route) (hr : r ∈ NewRouter) (p : GoString) :
    (r.template.matchPath r.strictSlash p).isSome = true ↔
      p ∈ templateLang r.template.vars (r.template.tail r.strictSlash) r.strictSlash := by
  have hshape : wellShaped r.template.vars (r.template.tail r.strictSlash) = true := by
    simp only [NewRouter, List.mem_cons, List.mem_singleton, List.not_mem_nil, or_false] at hr
    rcases hr with rfl | rfl | rfl | rfl | rfl | rfl | rfl <;> decide
  exact matchVars_iff_lang _ _ _ hshape p

/-! ## The clone-URL codec -/

theorem encode_eq (u : GoString) (hu : IsBytes u) :
    stringsReplace (QueryEscape u) (bytes "%2F") (bytes "$") = encodeBytes u := by
  simp only [bytes_dollar, bytes_pct2F, stringsReplace, QueryEscape]
  simp [replace_escape u hu]

theorem encodeBytes_no_slash (u : GoString) (hu : IsBytes u) : 47 ∉ encodeBytes u := by
  induction u with
  | nil => simp [encodeBytes]
  | cons c u ih =>
    have hc : c < 256 := hu c (List.mem_cons_self _ _)
    have ih := ih (fun b hb => hu b (List.mem_cons_of_mem _ hb))
    obtain ⟨-, -, -, -, -, -, h7, h8, -, -⟩ := hex_facts c hc
    unfold encodeBytes
    by_cases c47 : c = 47
    · simp [c47, ih]
    · by_cases c32 : c = 32
      · simp [c32, ih]
      · by_cases he : shouldEscape c = true
        · simp [c47, c32, he, ih, h7.symm, h8.symm]
        · simp [c47, c32, he, ih, Ne.symm c47]

theorem encodeBytes_ne_nil (u : GoString) (hu : u ≠ []) : encodeBytes u ≠ [] := by
  cases u with
  | nil => exact absurd rfl hu
  | cons c u =>
    unfold encodeBytes
    split
    · simp
    · split
      · simp
      · split <;> simp

theorem unescapeRepoVars_escapeRepoVars (vars : Vars) (u : GoString) (hu : IsBytes u)
    (hv : vars "CloneURL" = some u) (hesc : vars "CloneURLEscaped" = none) :
    unescapeRepoVars (escapeRepoVars vars) = vars := by
  have hget : vars.get "CloneURL" = u := Vars.get_of_eq_some _ _ _ hv
  funext k
  unfold unescapeRepoVars escapeRepoVars
  simp only [hget]
  have hE : (((vars.set "CloneURLEscaped"
      (stringsReplace (QueryEscape u) (bytes "%2F") (bytes "$"))).delete "CloneURL").get
      "CloneURLEscaped") = stringsReplace (QueryEscape u) (bytes "%2F") (bytes "$") := by
    simp [Vars.get, Vars.set, Vars.delete]
  rw [hE, QueryUnescape_encode u hu]
  by_cases h1 : k = "CloneURLEscaped"
  · subst h1
    simp [Vars.delete, hesc]
  · by_cases h2 : k = "CloneURL"
    · subst h2
      simp [Vars.delete, Vars.set, hv]
    · simp [Vars.delete, Vars.set, h1, h2]

/-- C1. Clone-URL round trip: for every clone URL `u` (a string of bytes), whatever
the other variables are, `unescapeRepoVars` applied to the result of
`escapeRepoVars` sets `CloneURL` to `u` again and removes `CloneURLEscaped`; on the
strings, `url.QueryUnescape` of the encoding with every `$` replaced by `%2F` returns
`u` without error. -/
theorem cloneURL_roundtrip (vars : Vars) (u : GoString) (hu : IsBytes u) :
    (unescapeRepoVars (escapeRepoVars (vars.set "CloneURL" u))) "CloneURL" = some u ∧
    (unescapeRepoVars (escapeRepoVars (vars.set "CloneURL" u))) "CloneURLEscaped" = none ∧
    QueryUnescape (stringsReplace (stringsReplace (QueryEscape u) (bytes "%2F") (bytes "$"))
      (bytes "$") (bytes "%2F")) = (u, none) := by
  have hq := QueryUnescape_encode u hu
  refine ⟨?_, ?_, hq⟩
  · unfold unescapeRepoVars escapeRepoVars
    simp only [Vars.get_set_same]
    have hE : (((vars.set "CloneURL" u).set "CloneURLEscaped"
        (stringsReplace (QueryEscape u) (bytes "%2F") (bytes "$"))).delete "CloneURL").get
        "CloneURLEscaped" = stringsReplace (QueryEscape u) (bytes "%2F") (bytes "$") := by
      simp [Vars.get, Vars.set, Vars.delete]
    rw [hE, hq]
    simp [Vars.delete, Vars.set]
  · unfold unescapeRepoVars
    simp [Vars.delete]

/-- Witness of C1: a clone URL with `$`, `%`, `+`, a space, `/` and the text `%2F`. -/
theorem cloneURL_roundtrip_witness :
    IsBytes (bytes "a$b%c+d e/f%2F") ∧
    (unescapeRepoVars (escapeRepoVars (Vars.empty.set "CloneURL" (bytes "a$b%c+d e/f%2F"))))
      "CloneURL" = some (bytes "a$b%c+d e/f%2F") :=
  ⟨by decide, (cloneURL_roundtrip Vars.empty (bytes "a$b%c+d e/f%2F") (by decide)).1⟩

/-- C4. For every clone URL `u`, the value that `escapeRepoVars` stores in
`CloneURLEscaped` has no `/`; when `u` is not empty, it matches the pattern `[^/]+`
of the placeholder. -/
theorem cloneURLEscaped_segment (vars : Vars) (u : GoString) (hu : IsBytes u) :
    47 ∉ (escapeRepoVars (vars.set "CloneURL" u)).get "CloneURLEscaped" ∧
    (u ≠ [] → VarPattern.accepts .segment
      ((escapeRepoVars (vars.set "CloneURL" u)).get "CloneURLEscaped") = true) := by
  have hE : (escapeRepoVars (vars.set "CloneURL" u)).get "CloneURLEscaped" = encodeBytes u := by
    unfold escapeRepoVars
    simp only [Vars.get_set_same]
    rw [encode_eq u hu]
    simp [Vars.get, Vars.set, Vars.delete]
  rw [hE]
  refine ⟨encodeBytes_no_slash u hu, fun hne => ?_⟩
  simp [VarPattern.accepts, encodeBytes_ne_nil u hne, encodeBytes_no_slash u hu]

/-- Witness of C4: the clone URL `https://example.com/foo/bar.git`. -/
theorem cloneURLEscaped_segment_witness :
    IsBytes (bytes "https://example.com/foo/bar.git") ∧
    47 ∉ (escapeRepoVars (Vars.empty.set "CloneURL"
      (bytes "https://example.com/foo/bar.git"))).get "CloneURLEscaped" :=
  ⟨by decide,
    (cloneURLEscaped_segment Vars.empty (bytes "https://example.com/foo/bar.git")
      (by decide)).1⟩

/-- C5, as the claim states it, fails: `%zz` and a trailing `%` are invalid percent
sequences (`url.QueryUnescape` reports an error for them), yet `unescapeRepoVars`
reports nothing and sets `CloneURL` to the empty string, and the request
`GET /repos/git/%zz` matches the route `repo` with that empty `CloneURL`. -/
theorem malformed_cloneURL_counterexample :
    hasInvalidPercent (stringsReplace (bytes "%zz") (bytes "$") (bytes "%2F")) = true ∧
    (QueryUnescape (stringsReplace (bytes "%zz") (bytes "$") (bytes "%2F"))).2 ≠ none ∧
    (unescapeRepoVars (Vars.empty.set "CloneURLEscaped" (bytes "%zz"))) "CloneURL" = some [] ∧
    (unescapeRepoVars (Vars.empty.set "CloneURLEscaped" (bytes "abc%"))) "CloneURL" = some [] ∧
    (Router.Match NewRouter "GET" (bytes "/repos/git/%zz")).map (fun m => (m.1, m.2 "CloneURL"))
      = some (RouteRepo, some []) := by
  decide

/-- C5, amended: for every `CloneURLEscaped` value that, after every `$` is replaced
by `%2F`, has an invalid percent sequence, `url.QueryUnescape` reports an error and
`unescapeRepoVars` discards it: it sets `CloneURL` to the empty string and removes
`CloneURLEscaped`. -/
theorem malformed_cloneURL_empty (vars : Vars)
    (h : hasInvalidPercent (stringsReplace (vars.get "CloneURLEscaped") (bytes "$")
      (bytes "%2F")) = true) :
    (QueryUnescape (stringsReplace (vars.get "CloneURLEscaped") (bytes "$")
      (bytes "%2F"))).2 ≠ none ∧
    (unescapeRepoVars vars) "CloneURL" = some [] ∧
    (unescapeRepoVars vars) "CloneURLEscaped" = none := by
  obtain ⟨e, he⟩ := (unescape_error_iff _ _ (le_refl _)).1 h
  have hq : QueryUnescape (stringsReplace (vars.get "CloneURLEscaped") (bytes "$")
      (bytes "%2F")) = ([], some e) := by
    unfold QueryUnescape
    rw [he]
  refine ⟨by rw [hq]; simp, ?_, ?_⟩
  · unfold unescapeRepoVars
    simp only [hq]
    simp [Vars.delete, Vars.set]
  · unfold unescapeRepoVars
    simp [Vars.delete]

/-- Witness of C5 amended: the malformed value `%zz`. -/
theorem malformed_cloneURL_empty_witness :
    hasInvalidPercent (stringsReplace
      ((Vars.empty.set "CloneURLEscaped" (bytes "%zz")).get "CloneURLEscaped") (bytes "$")
      (bytes "%2F")) = true ∧
    (unescapeRepoVars (Vars.empty.set "CloneURLEscaped" (bytes "%zz"))) "CloneURL" = some [] :=
  ⟨by decide,
    (malformed_cloneURL_empty (Vars.empty.set "CloneURLEscaped" (bytes "%zz"))
      (by decide)).2.1⟩

/-! ## The tree-path codec -/

theorem isCanonical_ne_nil (p : GoString) (hp : IsCanonicalTreePath p) : p ≠ [] := by
  intro e
  subst e
  revert hp
  decide

theorem cleanTreeVars_prepareTreeVars (vars : Vars) (p : GoString)
    (hv : vars "Path" = some p) (hp : IsCanonicalTreePath p) :
    cleanTreeVars (prepareTreeVars vars) = vars := by
  have hget : vars.get "Path" = p := Vars.get_of_eq_some _ _ _ hv
  have hset : ∀ x : GoString, (vars.set "Path" x).set "Path" p = vars := by
    intro x
    funext k
    by_cases hk : k = "Path"
    · subst hk; simp [Vars.set, hv]
    · simp [Vars.set, hk]
  unfold prepareTreeVars
  rw [hget, bytes_dot, bytes_slash]
  by_cases hdot : p = [46]
  · subst hdot
    simp only [if_true]
    unfold cleanTreeVars
    rw [Vars.get_set_same, bytes_dot, bytes_slash]
    have : Clean (stringsTrimPrefix [] [47]) = [46] := by decide
    rw [this]
    simp only [or_true, if_true]
    exact hset _
  · simp only [hdot, if_false]
    have hproper : ∀ x ∈ splitSlash p, x ≠ [] ∧ x ≠ [46] ∧ x ≠ [46, 46] := by
      rcases hp with h | h
      · exact absurd h hdot
      · exact h
    have hclean := Clean_proper p hproper
    unfold cleanTreeVars
    rw [Vars.get_set_same, bytes_dot, bytes_slash, hclean]
    have : stringsTrimPrefix ([47] ++ p) [47] = p := stringsTrimPrefix_slash_cons p
    rw [this, hclean]
    simp only [isCanonical_ne_nil p hp, hdot, or_self, if_false]
    exact hset _

/-- C3. Tree-path round trip: for every canonical tree path `p` (`.`, or a relative
path whose segments are all proper names), `prepareTreeVars` sets `Path` to the
empty string when `p` is `.` and to `/` followed by `p` otherwise, and `cleanTreeVars`
applied to the result sets `Path` to `p` again. -/
theorem treePath_roundtrip (vars : Vars) (p : GoString) (hp : IsCanonicalTreePath p) :
    (prepareTreeVars (vars.set "Path" p)) "Path" =
      some (if p = bytes "." then [] else bytes "/" ++ p) ∧
    (cleanTreeVars (prepareTreeVars (vars.set "Path" p))) "Path" = some p := by
  constructor
  · unfold prepareTreeVars
    rw [Vars.get_set_same]
    by_cases hdot : p = bytes "."
    · simp [hdot, Vars.set]
    · have hproper : ∀ x ∈ splitSlash p, x ≠ [] ∧ x ≠ [46] ∧ x ≠ [46, 46] := by
        rcases hp with h | h
        · exact absurd h (by rw [← bytes_dot]; exact hdot)
        · exact h
      simp [hdot, Vars.set, Clean_proper p hproper]
  · rw [cleanTreeVars_prepareTreeVars (vars.set "Path" p) p (Vars.set_same _ _ _) hp]
    exact Vars.set_same _ _ _

/-- Witness of C3: `src/main` is encoded as `/src/main` and decoded as `src/main`. -/
theorem treePath_roundtrip_witness :
    IsCanonicalTreePath (bytes "src/main") ∧
    (prepareTreeVars (Vars.empty.set "Path" (bytes "src/main"))) "Path" =
      some (bytes "/src/main") ∧
    (cleanTreeVars (prepareTreeVars (Vars.empty.set "Path" (bytes "src/main")))) "Path" =
      some (bytes "src/main") :=
  ⟨by decide, by decide,
    (treePath_roundtrip Vars.empty (bytes "src/main") (by decide)).2⟩

theorem trimmed_relative (raw : GoString) (h : (bytes "//").isPrefixOf raw = false) :
    (stringsTrimPrefix raw (bytes "/")).head? ≠ some 47 := by
  have hb : bytes "//" = [47, 47] := by decide
  rw [hb] at h
  rw [bytes_slash]
  cases raw with
  | nil => simp [stringsTrimPrefix]
  | cons c s =>
    by_cases hc : c = 47
    · subst hc
      rw [stringsTrimPrefix_slash_cons]
      cases s with
      | nil => simp
      | cons d s =>
        intro e
        have hd : d = 47 := by simpa using e
        subst hd
        simp [List.isPrefixOf] at h
    · have : stringsTrimPrefix (c :: s) [47] = c :: s := by
        simp [stringsTrimPrefix, List.isPrefixOf, Ne.symm hc]
      rw [this]
      simpa using hc

theorem cleanTreeVars_path (vars : Vars) :
    (cleanTreeVars vars).get "Path" =
      if Clean (stringsTrimPrefix (vars.get "Path") (bytes "/")) = bytes "." then bytes "."
      else Clean (stringsTrimPrefix (vars.get "Path") (bytes "/")) := by
  unfold cleanTreeVars
  have hne := Clean_ne_nil (stringsTrimPrefix (vars.get "Path") (bytes "/"))
  by_cases h : Clean (stringsTrimPrefix (vars.get "Path") (bytes "/")) = bytes "."
  · simp [h, Vars.get_set_same]
  · simp [h, hne, Vars.get_set_same]

/-- C6, as the claim states it, fails: the suffixes `/..`, `/../x` and `/a/../../b`
are decoded without any error, to the paths `..`, `../x` and `../b`, which begin with
a `..` segment; and the request for the tree entry `/tree/../x` matches the route
with that path. -/
theorem escaping_treePath_counterexample :
    (cleanTreeVars (Vars.empty.set "Path" (bytes "/.."))) "Path" = some (bytes "..") ∧
    (cleanTreeVars (Vars.empty.set "Path" (bytes "/../x"))) "Path" = some (bytes "../x") ∧
    (cleanTreeVars (Vars.empty.set "Path" (bytes "/a/../../b"))) "Path" = some (bytes "../b") ∧
    (Router.Match NewRouter "GET" (bytes "/repos/git/x/commits/c/tree/../x")).map
      (fun m => (m.1, m.2 "Path")) = some (RouteRepoTreeEntry, some (bytes "../x")) := by
  decide

/-- C6, amended: for every raw tree suffix that does not start with `//` and whose
lexical cleaning, after one leading `/` is stripped, ascends above the root,
`cleanTreeVars` does not fail and does not clamp to the root: it sets `Path` to the
cleaned path, and that path begins with a `..` segment. -/
theorem escaping_treePath_kept (vars : Vars)
    (hrel : (bytes "//").isPrefixOf (vars.get "Path") = false)
    (hasc : AscendsAboveRoot (stringsTrimPrefix (vars.get "Path") (bytes "/"))) :
    (cleanTreeVars vars).get "Path" = Clean (stringsTrimPrefix (vars.get "Path") (bytes "/")) ∧
    (splitSlash ((cleanTreeVars vars).get "Path")).head? = some (bytes "..") := by
  have ht := trimmed_relative _ hrel
  have hclean := Clean_relative _ ht
  have hgood := compsOf_good _ (cleanComps_good (stringsTrimPrefix (vars.get "Path") (bytes "/")))
  obtain ⟨n, hn⟩ : ∃ n, (cleanComps (splitSlash (stringsTrimPrefix (vars.get "Path")
      (bytes "/")))).1 = n + 1 := ⟨_, (Nat.succ_pred_eq_of_pos hasc).symm⟩
  have hcomps : ∃ cs, compsOf (cleanComps (splitSlash (stringsTrimPrefix (vars.get "Path")
      (bytes "/")))) = [46, 46] :: cs := by
    unfold compsOf
    rw [hn, List.replicate_succ]
    exact ⟨_, rfl⟩
  obtain ⟨cs, hcs⟩ := hcomps
  have hrender : Clean (stringsTrimPrefix (vars.get "Path") (bytes "/")) =
      joinSlash ([46, 46] :: cs) := by
    rw [hclean]
    unfold renderComps
    rw [hcs]
    simp
  have hsplit : splitSlash (joinSlash ([46, 46] :: cs)) = [46, 46] :: cs := by
    apply splitSlash_joinSlash _ (by simp)
    intro x hx
    rw [← hcs] at hx
    exact (hgood x hx).2.1
  have hnedot : Clean (stringsTrimPrefix (vars.get "Path") (bytes "/")) ≠ bytes "." := by
    intro e
    have h1 : splitSlash (Clean (stringsTrimPrefix (vars.get "Path") (bytes "/"))) =
        [46, 46] :: cs := by rw [hrender, hsplit]
    rw [e] at h1
    revert h1
    rw [bytes_dot]
    simp [splitSlash]
  have hpath := cleanTreeVars_path vars
  rw [if_neg hnedot] at hpath
  refine ⟨hpath, ?_⟩
  rw [hpath, hrender, hsplit, bytes_dotdot]
  rfl

/-- Witness of C6 amended: the suffix `/a/../../b`. -/
theorem escaping_treePath_kept_witness :
    (splitSlash ((cleanTreeVars (Vars.empty.set "Path" (bytes "/a/../../b"))).get "Path")).head?
      = some (bytes "..") :=
  (escaping_treePath_kept (Vars.empty.set "Path" (bytes "/a/../../b")) (by decide)
    (by decide)).2

/-- C7, as the claim states it, fails: the suffix `//etc/passwd` is accepted by the
pattern `(?:/.*)*`, and `cleanTreeVars` sets `Path` to `/etc/passwd`, which begins
with `/`; the request for the tree entry `/tree//etc/passwd` matches the route with
that path. -/
theorem absolute_treePath_counterexample :
    VarPattern.accepts .treeSuffix (bytes "//etc/passwd") = true ∧
    (cleanTreeVars (Vars.empty.set "Path" (bytes "//etc/passwd"))) "Path" =
      some (bytes "/etc/passwd") ∧
    ¬ IsCleanRelative (bytes "/etc/passwd") ∧
    (Router.Match NewRouter "GET" (bytes "/repos/git/x/commits/c/tree//etc/passwd")).map
      (fun m => (m.1, m.2 "Path")) = some (RouteRepoTreeEntry, some (bytes "/etc/passwd")) := by
  decide

/-- C7, amended: for every raw suffix that does not start with `//` (one leading `/`
at most), the `Path` value set by `cleanTreeVars` is `.` or a clean relative path: it
does not begin with `/`, does not end with `/`, and has no empty segment and no `.`
segment. -/
theorem decoded_treePath_clean (vars : Vars)
    (hrel : (bytes "//").isPrefixOf (vars.get "Path") = false) :
    (cleanTreeVars vars).get "Path" = bytes "." ∨
      IsCleanRelative ((cleanTreeVars vars).get "Path") := by
  have ht := trimmed_relative _ hrel
  rw [cleanTreeVars_path]
  by_cases h : Clean (stringsTrimPrefix (vars.get "Path") (bytes "/")) = bytes "."
  · left; rw [if_pos h]
  · right
    rw [if_neg h]
    rcases Clean_relative_clean _ ht with h1 | h1
    · exact absurd (by rw [bytes_dot]; exact h1) h
    · exact h1

/-- Witness of C7 amended: the suffix `/a//b/./c/`. -/
theorem decoded_treePath_clean_witness :
    (cleanTreeVars (Vars.empty.set "Path" (bytes "/a//b/./c/"))).get "Path" = bytes "." ∨
      IsCleanRelative ((cleanTreeVars (Vars.empty.set "Path" (bytes "/a//b/./c/"))).get "Path") :=
  decoded_treePath_clean (Vars.empty.set "Path" (bytes "/a//b/./c/")) (by decide)

/-- C8. Root sentinel: `cleanTreeVars` never sets `Path` to the empty string, and
for every raw tree suffix that, after one leading `/` is stripped, cleans to the empty
string or to `.`, it sets `Path` to `.`. -/
theorem root_sentinel (vars : Vars) :
    (cleanTreeVars vars) "Path" ≠ some [] ∧
    ((Clean (stringsTrimPrefix (vars.get "Path") (bytes "/")) = [] ∨
      Clean (stringsTrimPrefix (vars.get "Path") (bytes "/")) = bytes ".") →
      (cleanTreeVars vars) "Path" = some (bytes ".")) := by
  constructor
  · unfold cleanTreeVars
    by_cases h : Clean (stringsTrimPrefix (vars.get "Path") (bytes "/")) = [] ∨
        Clean (stringsTrimPrefix (vars.get "Path") (bytes "/")) = bytes "."
    · simp only [h, if_true, Vars.set_same]
      decide
    · simp only [h, if_false, Vars.set_same]
      intro e
      exact h (Or.inl (Option.some.inj e))
  · intro h
    unfold cleanTreeVars
    simp only [h, if_true, Vars.set_same]

/-- Witness of C8: the suffixes ` `, `/` and `/.` are all decoded as `.`. -/
theorem root_sentinel_witness :
    (cleanTreeVars (Vars.empty.set "Path" (bytes ""))) "Path" = some (bytes ".") ∧
    (cleanTreeVars (Vars.empty.set "Path" (bytes "/"))) "Path" = some (bytes ".") ∧
    (cleanTreeVars (Vars.empty.set "Path" (bytes "/."))) "Path" = some (bytes ".") :=
  ⟨(root_sentinel (Vars.empty.set "Path" (bytes ""))).2 (by decide),
   (root_sentinel (Vars.empty.set "Path" (bytes "/"))).2 (by decide),
   (root_sentinel (Vars.empty.set "Path" (bytes "/."))).2 (by decide)⟩

/-! ## The dispatch of `main` -/

theorem mem_subcommands (c : subcommand) (hc : c ∈ subcommands) :
    c = ⟨"serve", "start an HTTP server to serve VCS repository data", .serveCmd⟩ ∨
    c = ⟨"repo", "display information about a repository", .repoCmd⟩ := by
  simpa [subcommands] using hc

theorem serve_mem_subcommands :
    (⟨"serve", "start an HTTP server to serve VCS repository data", .serveCmd⟩ : subcommand)
      ∈ subcommands := by
  simp [subcommands]

theorem repo_mem_subcommands :
    (⟨"repo", "display information about a repository", .repoCmd⟩ : subcommand)
      ∈ subcommands := by
  simp [subcommands]

theorem main_serve (extraArgs : List String) :
    main (.args ("serve" :: extraArgs)) = [Event.run .serveCmd extraArgs] := by
  simp [main, dispatch, subcommands]

theorem main_repo (extraArgs : List String) :
    main (.args ("repo" :: extraArgs)) = [Event.run .repoCmd extraArgs] := by
  simp [main, dispatch, subcommands]

theorem main_unknown (subcmd : String) (extraArgs : List String) (h1 : "serve" ≠ subcmd)
    (h2 : "repo" ≠ subcmd) :
    main (.args (subcmd :: extraArgs)) =
      [Event.unknownSubcommand subcmd, Event.usageHint, Event.exit 1] := by
  simp [main, dispatch, subcommands, h1, h2]

/-- The handler of an entry of the table is run, with the remaining arguments and
nothing else, when the first positional argument is the name of the entry. -/
theorem main_known (c : subcommand) (hc : c ∈ subcommands) (extraArgs : List String) :
    main (.args (c.Name :: extraArgs)) = [Event.run c.Run extraArgs] := by
  rcases mem_subcommands c hc with rfl | rfl
  · exact main_serve extraArgs
  · exact main_repo extraArgs

/-- A handler is run only for the positional arguments that start with the name of
its entry. -/
theorem run_only_known (p : Parsed) (h : Handler) (a : List String)
    (hm : Event.run h a ∈ main p) :
    ∃ c ∈ subcommands, p = .args (c.Name :: a) ∧ c.Run = h := by
  cases p with
  | help => simp [main, flagUsage, subcommands] at hm
  | badFlag => simp [main, flagUsage, subcommands] at hm
  | args l =>
    cases l with
    | nil => simp [main, flagUsage, subcommands] at hm
    | cons subcmd extraArgs =>
      by_cases h1 : "serve" = subcmd
      · subst h1
        rw [main_serve] at hm
        simp only [List.mem_singleton, Event.run.injEq] at hm
        obtain ⟨rfl, rfl⟩ := hm
        exact ⟨_, serve_mem_subcommands, rfl, rfl⟩
      · by_cases h2 : "repo" = subcmd
        · subst h2
          rw [main_repo] at hm
          simp only [List.mem_singleton, Event.run.injEq] at hm
          obtain ⟨rfl, rfl⟩ := hm
          exact ⟨_, repo_mem_subcommands, rfl, rfl⟩
        · rw [main_unknown subcmd extraArgs h1 h2] at hm
          simp at hm

/-- C10, as the claim states it, fails: `bogus` is the name of no entry of the
table, and `main` on it writes the line about the unknown subcommand and the hint,
then exits with status 1; it does not write the list of the subcommands. -/
theorem unknown_subcommand_counterexample :
    (∀ c ∈ subcommands, ["bogus"].head? ≠ some c.Name) ∧
    main (.args ["bogus"]) =
      [Event.unknownSubcommand "bogus", Event.usageHint, Event.exit 1] ∧
    (∀ c ∈ subcommands,
      Event.subcommandLine c.Name c.Description ∉ main (.args ["bogus"])) := by
  decide

/-- C10, amended: for every outcome of `flag.Parse()`,
* `main` runs a handler only if there is a first positional argument and it is the
  `Name` of an entry of `subcommands`, and the handler is the one of that entry, run
  with the remaining arguments;
* when the first positional argument is the `Name` of an entry, `main` runs the
  handler of that entry with exactly the remaining arguments, and does nothing else:
  it writes nothing and does not call `os.Exit`;
* when the first positional argument is the name of no entry, `main` writes the line
  about the unknown subcommand and the hint, exits with status 1, and does nothing
  else: no handler runs and the list of the subcommands is not written;
* when there is no positional argument, or `flag.Parse()` has called `flag.Usage`, no
  handler runs, the list of all the subcommands is written and the last thing done is
  the exit with status 1;
* the list of the subcommands is not written when there is a positional argument. -/
theorem dispatch_spec (p : Parsed) :
    (∀ h a, Event.run h a ∈ main p →
      ∃ c ∈ subcommands, p = .args (c.Name :: a) ∧ c.Run = h) ∧
    (∀ c ∈ subcommands, ∀ extraArgs, p = .args (c.Name :: extraArgs) →
      main p = [Event.run c.Run extraArgs]) ∧
    (∀ subcmd extraArgs, p = .args (subcmd :: extraArgs) →
      (∀ c ∈ subcommands, c.Name ≠ subcmd) →
      main p = [Event.unknownSubcommand subcmd, Event.usageHint, Event.exit 1]) ∧
    ((∀ subcmd extraArgs, p ≠ .args (subcmd :: extraArgs)) →
      (∀ h a, Event.run h a ∉ main p) ∧
      (∀ c ∈ subcommands, Event.subcommandLine c.Name c.Description ∈ main p) ∧
      (main p).getLast? = some (Event.exit 1)) ∧
    (∀ subcmd extraArgs, p = .args (subcmd :: extraArgs) →
      ∀ name description, Event.subcommandLine name description ∉ main p) := by
  refine ⟨fun h a hm => run_only_known p h a hm, ?_, ?_, ?_, ?_⟩
  · intro c hc extraArgs hp
    subst hp
    exact main_known c hc extraArgs
  · intro subcmd extraArgs hp hno
    subst hp
    exact main_unknown subcmd extraArgs (hno _ serve_mem_subcommands)
      (hno _ repo_mem_subcommands)
  · intro hno
    refine ⟨fun h a hm => ?_, ?_, ?_⟩
    · obtain ⟨c, -, hp, -⟩ := run_only_known p h a hm
      exact hno _ _ hp
    · cases p with
      | help => decide
      | badFlag => decide
      | args l =>
        cases l with
        | nil => decide
        | cons subcmd extraArgs => exact absurd rfl (hno subcmd extraArgs)
    · cases p with
      | help => decide
      | badFlag => decide
      | args l =>
        cases l with
        | nil => decide
        | cons subcmd extraArgs => exact absurd rfl (hno subcmd extraArgs)
  · intro subcmd extraArgs hp name description hm
    subst hp
    by_cases h1 : "serve" = subcmd
    · subst h1
      rw [main_serve] at hm
      simp at hm
    · by_cases h2 : "repo" = subcmd
      · subst h2
        rw [main_repo] at hm
        simp at hm
      · rw [main_unknown subcmd extraArgs h1 h2] at hm
        simp at hm

/-- Witness of C10 amended: `serve -http :80` runs the handler `serveCmd` with the
arguments `-http :80` and nothing else; `repo git x` runs `repoCmd` with `git x`. -/
theorem dispatch_spec_witness :
    main (.args ["serve", "-http", ":80"]) = [Event.run .serveCmd ["-http", ":80"]] ∧
    main (.args ["repo", "git", "x"]) = [Event.run .repoCmd ["git", "x"]] :=
  ⟨(dispatch_spec (.args ["serve", "-http", ":80"])).2.1
      ⟨"serve", "start an HTTP server to serve VCS repository data", .serveCmd⟩
      (by decide) ["-http", ":80"] rfl,
    (dispatch_spec (.args ["repo", "git", "x"])).2.1
      ⟨"repo", "display information about a repository", .repoCmd⟩
      (by decide) ["git", "x"] rfl⟩

/-! ## Lemmas on the route table -/

theorem bytes_repos : bytes "/repos/" = [47, 114, 101, 112, 111, 115, 47] := by decide

theorem bytes_branches : bytes "/branches/" = [47, 98, 114, 97, 110, 99, 104, 101, 115, 47] := by decide

theorem bytes_revs : bytes "/revs/" = [47, 114, 101, 118, 115, 47] := by decide

theorem bytes_tags : bytes "/tags/" = [47, 116, 97, 103, 115, 47] := by decide

theorem bytes_commits : bytes "/commits/" = [47, 99, 111, 109, 109, 105, 116, 115, 47] := by decide

theorem bytes_tree : bytes "/tree" = [47, 116, 114, 101, 101] := by decide

theorem matchVars_repoPath (ps : List Placeholder) (rest : GoString) (vcs e s : GoString)
    (hv : IsSegmentValue vcs) (he : IsSegmentValue e) (hs : s = [] ∨ s.head? = some 47) :
    matchVars (repoPath ++ ps) rest true (bytes "/repos/" ++ (vcs ++ (bytes "/" ++ (e ++ s)))) =
      match matchVars ps rest true s with
      | none => none
      | some caps => some (("VCS", vcs) :: ("CloneURLEscaped", e) :: caps) := by
  unfold repoPath
  simp only [List.cons_append, List.nil_append]
  rw [matchVars_segment _ _ _ _ _ vcs _ hv (Or.inr (by simp [bytes_slash])),
    matchVars_segment _ _ _ _ _ e s he hs]
  cases matchVars ps rest true s <;> rfl


theorem matchRoutes_of_exists (rs : List Route) (m : String) (p : GoString)
    (h : ∃ r ∈ rs, (r.matchRequest m p).isSome = true) :
    ∃ r ∈ rs, ∃ v, r.matchRequest m p = some v ∧ matchRoutes rs m p = some (r.name, v) := by
  induction rs with
  | nil => simp at h
  | cons r rs ih =>
    cases hr : r.matchRequest m p with
    | some v => exact ⟨r, List.mem_cons_self _ _, v, hr, by simp [matchRoutes, hr]⟩
    | none =>
      obtain ⟨q, hq, hm⟩ := h
      rcases List.mem_cons.1 hq with e | hq
      · subst e; rw [hr] at hm; simp at hm
      · obtain ⟨r', hr', v, hv, hres⟩ := ih ⟨q, hq, hm⟩
        exact ⟨r', List.mem_cons_of_mem _ hr', v, hv, by simp [matchRoutes, hr, hres]⟩

theorem matchRoutes_none (rs : List Route) (m : String) (p : GoString)
    (h : ∀ r ∈ rs, r.matchRequest m p = none) : matchRoutes rs m p = none := by
  induction rs with
  | nil => rfl
  | cons r rs ih =>
    simp [matchRoutes, h r (List.mem_cons_self _ _),
      ih (fun q hq => h q (List.mem_cons_of_mem _ hq))]

theorem matchVars_nil_isSome (s : GoString) (h : (matchVars [] [] true s).isSome = true) :
    s = [] ∨ s = [47] := by
  rw [matchVars_nil] at h
  by_cases hc : s = [] ∨ (true = true ∧ s = [] ++ [47])
  · simpa using hc
  · rw [if_neg hc] at h; simp at h

theorem matchVars_segment_isSome (raw : GoString) (name : String) (ps : List Placeholder)
    (s : GoString)
    (h : (matchVars (⟨raw, name, .segment⟩ :: ps) [] true s).isSome = true) :
    ∃ t, dropLiteral raw s = some t ∧
      (matchVars ps [] true (t.dropWhile (· ≠ 47))).isSome = true := by
  rw [matchVars] at h
  cases hd : dropLiteral raw s with
  | none => rw [hd] at h; simp at h
  | some t =>
    refine ⟨t, rfl, ?_⟩
    rw [hd] at h
    simp only at h
    by_cases hv : t.takeWhile (· ≠ 47) = []
    · rw [if_pos hv] at h; simp at h
    · rw [if_neg hv] at h
      cases hm : matchVars ps [] true (t.dropWhile (· ≠ 47)) with
      | none => rw [hm] at h; simp at h
      | some caps => rfl

/-- A route under the repository prefix that matches a path matches what follows
the prefix. -/
theorem family_match (ps : List Placeholder) (p : GoString)
    (h : (matchVars (repoPath ++ ps) [] true p).isSome = true) :
    p.getD 1 0 = 114 ∧ (matchVars ps [] true (repoRest p)).isSome = true := by
  unfold repoPath at h
  simp only [List.cons_append, List.nil_append] at h
  obtain ⟨t, ht, h⟩ := matchVars_segment_isSome _ _ _ _ h
  obtain ⟨t2, ht2, h⟩ := matchVars_segment_isSome _ _ _ _ h
  constructor
  · rw [(dropLiteral_eq_some _ _ _).1 ht, bytes_repos]
    rfl
  · unfold repoRest
    rw [ht]
    simp only
    rw [ht2]
    exact h

theorem key_repo (s : GoString) (h : (matchVars [] [] true s).isSome = true) :
    s.getD 1 0 = 0 := by
  rcases matchVars_nil_isSome s h with e | e <;> subst e <;> rfl

theorem key_commit (ps : List Placeholder) (s : GoString)
    (h : (matchVars (commitPath ++ ps) [] true s).isSome = true) :
    s.getD 1 0 = 99 ∧ (matchVars ps [] true (commitRest s)).isSome = true := by
  unfold commitPath at h
  simp only [List.cons_append, List.nil_append] at h
  obtain ⟨t, ht, h⟩ := matchVars_segment_isSome _ _ _ _ h
  constructor
  · rw [(dropLiteral_eq_some _ _ _).1 ht, bytes_commits]
    rfl
  · unfold commitRest
    rw [ht]
    exact h

theorem matchVars_tree_isSome (s : GoString)
    (h : (matchVars [⟨bytes "/tree", "Path", .treeSuffix⟩] [] true s).isSome = true) :
    s ≠ [] ∧ s ≠ [47] := by
  rw [matchVars] at h
  cases hd : dropLiteral (bytes "/tree") s with
  | none => rw [hd] at h; simp at h
  | some t =>
    rw [(dropLiteral_eq_some _ _ _).1 hd, bytes_tree]
    simp

theorem matchRequest_isSome (r : Route) (m : String) (p : GoString)
    (h : (r.matchRequest m p).isSome = true) :
    (r.template.matchPath r.strictSlash p).isSome = true := by
  unfold Route.matchRequest at h
  by_cases hm : m ∈ r.methods
  · rw [if_pos hm] at h
    cases hp : r.template.matchPath r.strictSlash p with
    | none => rw [hp] at h; simp at h
    | some caps => rfl
  · rw [if_neg hm] at h; simp at h

theorem key_literal (raw : GoString) (name : String) (s : GoString) (k : Nat)
    (hk : ∀ t, (raw ++ t).getD 1 0 = k)
    (h : (matchVars [⟨raw, name, .segment⟩] [] true s).isSome = true) : s.getD 1 0 = k := by
  obtain ⟨t, ht, -⟩ := matchVars_segment_isSome _ _ _ _ h
  rw [(dropLiteral_eq_some _ _ _).1 ht]
  exact hk t

theorem classify_root (p : GoString) (h : p.getD 1 0 = 0) : classify p = RouteRoot := by
  unfold classify
  rw [if_pos h]

theorem classify_rest (p : GoString) (k : Nat) (h1 : p.getD 1 0 = 114)
    (h2 : (repoRest p).getD 1 0 = k) :
    classify p =
      if k = 0 then RouteRepo
      else if k = 98 then RouteRepoBranch
      else if k = 114 then RouteRepoRevision
      else if k = 116 then RouteRepoTag
      else if commitRest (repoRest p) = [] ∨ commitRest (repoRest p) = [47] then
        RouteRepoCommit
      else RouteRepoTreeEntry := by
  unfold classify
  rw [if_neg (by rw [h1]; decide), h2]

/-- The route that matches a request is the one that the path tells. -/
theorem name_of_match (m : String) (p : GoString) (r : Route) (hr : r ∈ NewRouter)
    (h : (r.matchRequest m p).isSome = true) : r.name = classify p := by
  have hp := matchRequest_isSome r m p h
  simp only [NewRouter, List.mem_cons, List.mem_singleton, List.not_mem_nil, or_false] at hr
  rcases hr with rfl | rfl | rfl | rfl | rfl | rfl | rfl
  · -- root
    have htail : PathTemplate.tail ⟨[], bytes "/"⟩ true = [] := by decide
    simp only [PathTemplate.matchPath, htail] at hp
    exact (classify_root p (key_repo p hp)).symm
  · -- repo
    have htail : PathTemplate.tail ⟨repoPath, []⟩ true = [] := by decide
    simp only [PathTemplate.matchPath, htail] at hp
    obtain ⟨h1, h2⟩ := family_match [] p (by simpa using hp)
    rw [classify_rest p 0 h1 (key_repo _ h2)]
    rfl
  · -- repo.branch
    have htail : PathTemplate.tail
        ⟨repoPath ++ [⟨bytes "/branches/", "Branch", .segment⟩], []⟩ true = [] := by decide
    simp only [PathTemplate.matchPath, htail] at hp
    obtain ⟨h1, h2⟩ := family_match _ p hp
    rw [classify_rest p 98 h1 (key_literal _ _ _ 98 (fun t => by rw [bytes_branches]; rfl) h2)]
    rfl
  · -- repo.rev
    have htail : PathTemplate.tail
        ⟨repoPath ++ [⟨bytes "/revs/", "RevSpec", .segment⟩], []⟩ true = [] := by decide
    simp only [PathTemplate.matchPath, htail] at hp
    obtain ⟨h1, h2⟩ := family_match _ p hp
    rw [classify_rest p 114 h1 (key_literal _ _ _ 114 (fun t => by rw [bytes_revs]; rfl) h2)]
    rfl
  · -- repo.tag
    have htail : PathTemplate.tail
        ⟨repoPath ++ [⟨bytes "/tags/", "Tag", .segment⟩], []⟩ true = [] := by decide
    simp only [PathTemplate.matchPath, htail] at hp
    obtain ⟨h1, h2⟩ := family_match _ p hp
    rw [classify_rest p 116 h1 (key_literal _ _ _ 116 (fun t => by rw [bytes_tags]; rfl) h2)]
    rfl
  · -- repo.commit
    have htail : PathTemplate.tail ⟨repoPath ++ commitPath, []⟩ true = [] := by decide
    simp only [PathTemplate.matchPath, htail] at hp
    obtain ⟨h1, h2⟩ := family_match _ p hp
    obtain ⟨h3, h4⟩ := key_commit [] _ (by simpa using h2)
    have h5 := matchVars_nil_isSome _ h4
    rw [classify_rest p 99 h1 h3]
    simp [h5]
  · -- repo.tree-entry
    have htail : PathTemplate.tail
        ⟨repoPath ++ commitPath ++ [⟨bytes "/tree", "Path", .treeSuffix⟩], []⟩ true = [] := by
      decide
    simp only [PathTemplate.matchPath, htail, List.append_assoc] at hp
    obtain ⟨h1, h2⟩ := family_match _ p hp
    obtain ⟨h3, h4⟩ := key_commit _ _ h2
    obtain ⟨h5, h6⟩ := matchVars_tree_isSome _ h4
    rw [classify_rest p 99 h1 h3]
    simp [h5, h6]

theorem route_of_name (r1 r2 : Route) (h1 : r1 ∈ NewRouter) (h2 : r2 ∈ NewRouter)
    (h : r1.name = r2.name) : r1 = r2 := by
  simp only [NewRouter, List.mem_cons, List.mem_singleton, List.not_mem_nil, or_false] at h1 h2
  rcases h1 with rfl | rfl | rfl | rfl | rfl | rfl | rfl <;>
    rcases h2 with rfl | rfl | rfl | rfl | rfl | rfl | rfl <;>
    first
      | rfl
      | (exfalso; revert h; decide)

/-- A route of the table that matches a request is the result of `Match`. -/
theorem Match_of_matchRequest (m : String) (p : GoString) (r : Route) (hr : r ∈ NewRouter)
    (v : Vars) (h : r.matchRequest m p = some v) :
    Router.Match NewRouter m p = some (r.name, v) := by
  obtain ⟨r', hr', v', hv', hres⟩ :=
    matchRoutes_of_exists NewRouter m p ⟨r, hr, by rw [h]; rfl⟩
  have hn : r'.name = r.name := by
    rw [name_of_match m p r' hr' (by rw [hv']; rfl), name_of_match m p r hr (by rw [h]; rfl)]
  have he := route_of_name r' r hr' hr hn
  subst he
  rw [h] at hv'
  simp only [Option.some.injEq] at hv'
  subst hv'
  exact hres

theorem url_of_match (t : PathTemplate) (ss : Bool) (values : Vars) (filled : GoString)
    (hf : fillVars t.vars values = some filled)
    (hm : (t.matchPath ss
      (filled ++ t.tail ss ++ (if t.endSlash ss = true then [47] else []))).isSome = true) :
    t.url ss values =
      some (filled ++ t.tail ss ++ (if t.endSlash ss = true then [47] else [])) := by
  unfold PathTemplate.url
  rw [hf]
  simp only [hm, if_true]

theorem escapeRepoVars_get (v : Vars) (u : GoString) (hu : IsBytes u)
    (hv : v "CloneURL" = some u) :
    escapeRepoVars v = (v.set "CloneURLEscaped" (encodeBytes u)).delete "CloneURL" := by
  unfold escapeRepoVars
  simp only [Vars.get_of_eq_some _ _ _ hv, encode_eq u hu]

theorem unescapeRepoVars_get (v : Vars) (u : GoString) (hu : IsBytes u)
    (hv : v "CloneURLEscaped" = some (encodeBytes u)) :
    unescapeRepoVars v = (v.set "CloneURL" u).delete "CloneURLEscaped" := by
  unfold unescapeRepoVars
  simp only [Vars.get_of_eq_some _ _ _ hv]
  rw [← encode_eq u hu, QueryUnescape_encode u hu]

theorem Get_of_mem (r : Route) (hr : r ∈ NewRouter) : Router.Get NewRouter r.name = some r := by
  simp only [NewRouter, List.mem_cons, List.mem_singleton, List.not_mem_nil, or_false] at hr
  rcases hr with rfl | rfl | rfl | rfl | rfl | rfl | rfl <;> rfl

/-- The build and the match of a route of the table whose template has no literal
after its last placeholder: when the filled template matches with captures from
which the post-match hooks give the variables back, `URLTo` returns the filled
template and `Match` returns the route and the variables. -/
theorem inverse_of (r : Route) (hr : r ∈ NewRouter) (v : Vars) (p : GoString)
    (caps : List (String × GoString)) (hget : r.methods = ["GET"]) (hss : r.strictSlash = true)
    (hrest : r.template.rest = [])
    (hfill : fillVars r.template.vars (r.buildVars.foldl (fun v f => f v) v) = some p)
    (hmatch : matchVars r.template.vars [] true p = some caps)
    (hpost : r.postMatch.foldl (fun v f => f v) (varsOfCaptures caps) = v) :
    Router.URLTo NewRouter r.name v = some p ∧
      Router.Match NewRouter "GET" p = some (r.name, v) := by
  have hend : r.template.endSlash true = false := by
    simp [PathTemplate.endSlash, hrest]
  have htail : r.template.tail true = [] := by
    simp [PathTemplate.tail, hend, hrest]
  constructor
  · unfold Router.URLTo
    rw [Get_of_mem r hr]
    simp only [Route.URL, hss]
    have hurl := url_of_match r.template true _ p hfill
    simp only [htail, hend, List.append_nil, Bool.false_eq_true, if_false,
      PathTemplate.matchPath] at hurl
    exact hurl (by rw [hmatch]; rfl)
  · apply Match_of_matchRequest "GET" p r hr
    simp only [Route.matchRequest, hget, List.mem_singleton, if_true, hss,
      PathTemplate.matchPath, htail, hmatch, hpost]

theorem child_inverse (name key : String) (lit vcs u x : GoString)
    (hr : (⟨name, ["GET"], ⟨repoPath ++ [⟨lit, key, .segment⟩], []⟩, true, [unescapeRepoVars],
      [escapeRepoVars]⟩ : Route) ∈ NewRouter)
    (hlit : lit.head? = some 47) (hk1 : key ≠ "VCS") (hk2 : key ≠ "CloneURL")
    (hk3 : key ≠ "CloneURLEscaped")
    (hvcs : IsSegmentValue vcs) (hne : u ≠ []) (hu : IsBytes u) (hx : IsSegmentValue x) :
    ∃ p, Router.URLTo NewRouter name
        (((Vars.empty.set "VCS" vcs).set "CloneURL" u).set key x) = some p ∧
      Router.Match NewRouter "GET" p =
        some (name, ((Vars.empty.set "VCS" vcs).set "CloneURL" u).set key x) := by
  have he : IsSegmentValue (encodeBytes u) :=
    ⟨encodeBytes_ne_nil u hne, encodeBytes_no_slash u hu⟩
  have hs : (lit ++ (x ++ [])) = [] ∨ (lit ++ (x ++ [])).head? = some 47 := by
    right
    cases lit with
    | nil => simp at hlit
    | cons a l => simpa using hlit
  refine ⟨bytes "/repos/" ++ (vcs ++ (bytes "/" ++ (encodeBytes u ++ (lit ++ (x ++ []))))), ?_⟩
  refine inverse_of _ hr _ _
    [("VCS", vcs), ("CloneURLEscaped", encodeBytes u), (key, x)] rfl rfl rfl ?_ ?_ ?_
  · simp only [List.foldl_cons, List.foldl_nil]
    rw [escapeRepoVars_get _ u hu (by simp [Vars.set, Ne.symm hk2])]
    simp [fillVars, repoPath, Vars.set, Vars.delete, hk1, hk2, hk3, Ne.symm hk1, Ne.symm hk2,
      Ne.symm hk3]
  · show matchVars (repoPath ++ [⟨lit, key, .segment⟩]) [] true _ = _
    rw [matchVars_repoPath _ _ vcs _ _ hvcs he hs,
      matchVars_segment _ _ _ _ _ x [] hx (Or.inl rfl), matchVars_nil]
    simp
  · simp only [List.foldl_cons, List.foldl_nil, varsOfCaptures]
    rw [unescapeRepoVars_get _ u hu (by simp [Vars.set])]
    funext k
    simp only [Vars.set, Vars.delete, Vars.empty]
    split_ifs <;> simp_all

theorem repo_inverse (vcs u : GoString) (hvcs : IsSegmentValue vcs) (hne : u ≠ [])
    (hu : IsBytes u) :
    ∃ p, Router.URLTo NewRouter RouteRepo ((Vars.empty.set "VCS" vcs).set "CloneURL" u) = some p ∧
      Router.Match NewRouter "GET" p =
        some (RouteRepo, (Vars.empty.set "VCS" vcs).set "CloneURL" u) := by
  have he : IsSegmentValue (encodeBytes u) :=
    ⟨encodeBytes_ne_nil u hne, encodeBytes_no_slash u hu⟩
  refine ⟨bytes "/repos/" ++ (vcs ++ (bytes "/" ++ (encodeBytes u ++ []))), ?_⟩
  refine inverse_of ⟨RouteRepo, ["GET"], ⟨repoPath, []⟩, true, [unescapeRepoVars],
      [escapeRepoVars]⟩ (by simp [NewRouter]) _ _
    [("VCS", vcs), ("CloneURLEscaped", encodeBytes u)] rfl rfl rfl ?_ ?_ ?_
  · simp only [List.foldl_cons, List.foldl_nil]
    rw [escapeRepoVars_get _ u hu (by simp [Vars.set])]
    simp [fillVars, repoPath, Vars.set, Vars.delete]
  · show matchVars repoPath [] true _ = _
    have := matchVars_repoPath [] [] vcs (encodeBytes u) [] hvcs he (Or.inl rfl)
    rw [List.append_nil] at this
    rw [this, matchVars_nil]
    simp
  · simp only [List.foldl_cons, List.foldl_nil, varsOfCaptures]
    rw [unescapeRepoVars_get _ u hu (by simp [Vars.set])]
    funext k
    simp only [Vars.set, Vars.delete, Vars.empty]
    split_ifs <;> simp_all

theorem cleanTreeVars_suffix (X : Vars) (p : GoString) (hp : IsCanonicalTreePath p)
    (hX : X "Path" = some (if p = [46] then [] else 47 :: p)) :
    cleanTreeVars X = X.set "Path" p := by
  unfold cleanTreeVars
  rw [Vars.get_of_eq_some _ _ _ hX, bytes_dot, bytes_slash]
  by_cases hdot : p = [46]
  · subst hdot
    simp only [if_true]
    have : Clean (stringsTrimPrefix [] [47]) = [46] := by decide
    rw [this]
    simp
  · simp only [hdot, if_false]
    have hproper : ∀ x ∈ splitSlash p, x ≠ [] ∧ x ≠ [46] ∧ x ≠ [46, 46] := by
      rcases hp with h | h
      · exact absurd h hdot
      · exact h
    rw [stringsTrimPrefix_slash_cons, Clean_proper p hproper]
    simp only [isCanonical_ne_nil p hp, hdot, or_self, if_false]

theorem prepareTreeVars_path (X : Vars) (p : GoString) (hp : IsCanonicalTreePath p)
    (hX : X "Path" = some p) :
    prepareTreeVars X = X.set "Path" (if p = [46] then [] else 47 :: p) := by
  unfold prepareTreeVars
  rw [Vars.get_of_eq_some _ _ _ hX, bytes_dot, bytes_slash]
  by_cases hdot : p = [46]
  · simp [hdot]
  · have hproper : ∀ x ∈ splitSlash p, x ≠ [] ∧ x ≠ [46] ∧ x ≠ [46, 46] := by
      rcases hp with h | h
      · exact absurd h hdot
      · exact h
    simp [hdot, Clean_proper p hproper]

theorem tree_inverse (vcs u c p : GoString) (hvcs : IsSegmentValue vcs) (hne : u ≠ [])
    (hu : IsBytes u) (hc : IsSegmentValue c) (hp : IsCanonicalTreePath p) (hnl : 10 ∉ p) :
    ∃ q, Router.URLTo NewRouter RouteRepoTreeEntry
        ((((Vars.empty.set "VCS" vcs).set "CloneURL" u).set "CommitID" c).set "Path" p) =
          some q ∧
      Router.Match NewRouter "GET" q =
        some (RouteRepoTreeEntry,
          (((Vars.empty.set "VCS" vcs).set "CloneURL" u).set "CommitID" c).set "Path" p) := by
  have he : IsSegmentValue (encodeBytes u) :=
    ⟨encodeBytes_ne_nil u hne, encodeBytes_no_slash u hu⟩
  have hs : (bytes "/commits/" ++ (c ++ (bytes "/tree" ++ (if p = [46] then [] else 47 :: p))))
      = [] ∨ (bytes "/commits/" ++ (c ++ (bytes "/tree" ++
        (if p = [46] then [] else 47 :: p)))).head? = some 47 := by
    right; simp [bytes_commits]
  have hs2 : (bytes "/tree" ++ (if p = [46] then [] else 47 :: p)) = [] ∨
      (bytes "/tree" ++ (if p = [46] then [] else 47 :: p)).head? = some 47 := by
    right; simp [bytes_tree]
  have hacc : VarPattern.accepts .treeSuffix (if p = [46] then [] else 47 :: p) = true := by
    by_cases hdot : p = [46]
    · simp [hdot, VarPattern.accepts]
    · simp [hdot, VarPattern.accepts, hnl]
  refine ⟨bytes "/repos/" ++ (vcs ++ (bytes "/" ++ (encodeBytes u ++
    (bytes "/commits/" ++ (c ++ (bytes "/tree" ++ (if p = [46] then [] else 47 :: p))))))), ?_⟩
  refine inverse_of ⟨RouteRepoTreeEntry, ["GET"],
      ⟨repoPath ++ commitPath ++ [⟨bytes "/tree", "Path", .treeSuffix⟩], []⟩,
      true, [cleanTreeVars, unescapeRepoVars], [escapeRepoVars, prepareTreeVars]⟩
    (by simp [NewRouter]) _ _
    [("VCS", vcs), ("CloneURLEscaped", encodeBytes u), ("CommitID", c),
      ("Path", if p = [46] then [] else 47 :: p)] rfl rfl rfl ?_ ?_ ?_
  · simp only [List.foldl_cons, List.foldl_nil]
    rw [escapeRepoVars_get _ u hu (by simp [Vars.set]),
      prepareTreeVars_path _ p hp (by simp [Vars.set, Vars.delete])]
    simp [fillVars, repoPath, commitPath, Vars.set, Vars.delete]
  · show matchVars (repoPath ++ commitPath ++ [⟨bytes "/tree", "Path", .treeSuffix⟩]) [] true _
      = _
    rw [List.append_assoc, matchVars_repoPath _ _ vcs _ _ hvcs he hs]
    unfold commitPath
    simp only [List.cons_append, List.nil_append]
    rw [matchVars_segment _ _ _ _ _ c _ hc hs2, matchVars_treeSuffix, if_pos hacc]
  · simp only [List.foldl_cons, List.foldl_nil, varsOfCaptures]
    rw [cleanTreeVars_suffix _ p hp (by simp [Vars.set]),
      unescapeRepoVars_get _ u hu (by simp [Vars.set])]
    funext k
    simp only [Vars.set, Vars.delete, Vars.empty]
    split_ifs <;> simp_all

theorem root_inverse :
    ∃ p, Router.URLTo NewRouter RouteRoot Vars.empty = some p ∧
      Router.Match NewRouter "GET" p = some (RouteRoot, Vars.empty) := by
  refine ⟨[47], by decide, ?_⟩
  exact Match_of_matchRequest "GET" [47] ⟨RouteRoot, ["GET"], ⟨[], bytes "/"⟩, true, [], []⟩
    (by simp [NewRouter]) Vars.empty (by rfl)

/-! ## Matching and building -/

/-- C2, as the claim states it, fails: `a`, newline, `b` is a canonical tree path,
the variable set with it is valid for the tree-entry route, and `URLTo` panics on
it (the value `/a`, newline, `b` does not match the pattern `(?:/.*)*` of the
placeholder, in which `.` stands for any byte but the newline); the path that the
template gives for it matches no route. -/
theorem newline_path_counterexample :
    ValidVars RouteRepoTreeEntry
      ((((Vars.empty.set "VCS" (bytes "git")).set "CloneURL" (bytes "x")).set "CommitID"
        (bytes "c")).set "Path" [97, 10, 98]) ∧
    Router.URLTo NewRouter RouteRepoTreeEntry
      ((((Vars.empty.set "VCS" (bytes "git")).set "CloneURL" (bytes "x")).set "CommitID"
        (bytes "c")).set "Path" [97, 10, 98]) = none ∧
    (Router.Match NewRouter "GET"
      (bytes "/repos/git/x/commits/c/tree/" ++ [97, 10, 98])).isNone = true :=
  ⟨ValidVars.tree _ _ _ _ (by decide) (by decide) (by decide) (by decide) (by decide),
    by decide, by decide⟩

/-- C2, amended: for every one of the seven routes and every valid variable set `v`
for it whose `Path` has no newline byte, `URLTo` builds a path, and matching that
path with method `GET` yields the same route name and the variable set `v`. -/
theorem match_build_inverse (route : String) (v : Vars) (hv : ValidVars route v)
    (hnl : 10 ∉ v.get "Path") :
    ∃ p, Router.URLTo NewRouter route v = some p ∧
      Router.Match NewRouter "GET" p = some (route, v) := by
  cases hv with
  | root => exact root_inverse
  | repo vcs u hvcs hne hu => exact repo_inverse vcs u hvcs hne hu
  | branch vcs u b hvcs hne hu hb =>
    exact child_inverse RouteRepoBranch "Branch" (bytes "/branches/") vcs u b
      (by simp [NewRouter]) (by decide) (by decide) (by decide) (by decide) hvcs hne hu hb
  | rev vcs u r hvcs hne hu hr =>
    exact child_inverse RouteRepoRevision "RevSpec" (bytes "/revs/") vcs u r
      (by simp [NewRouter]) (by decide) (by decide) (by decide) (by decide) hvcs hne hu hr
  | tag vcs u t hvcs hne hu ht =>
    exact child_inverse RouteRepoTag "Tag" (bytes "/tags/") vcs u t
      (by simp [NewRouter]) (by decide) (by decide) (by decide) (by decide) hvcs hne hu ht
  | commit vcs u c hvcs hne hu hc =>
    exact child_inverse RouteRepoCommit "CommitID" (bytes "/commits/") vcs u c
      (by simp [NewRouter, commitPath]) (by decide) (by decide) (by decide) (by decide)
      hvcs hne hu hc
  | tree vcs u c p hvcs hne hu hc hp =>
    exact tree_inverse vcs u c p hvcs hne hu hc hp (by simpa [Vars.get, Vars.set] using hnl)

/-- Witness of C2 amended: the tree-entry route with `VCS` `git`, `CloneURL`
`https://x.com/a/b.git`, `CommitID` `abc123` and `Path` `.`; the built path ends
with `/commits/abc123/tree`, without suffix. -/
theorem match_build_inverse_witness :
    Router.URLTo NewRouter RouteRepoTreeEntry
      ((((Vars.empty.set "VCS" (bytes "git")).set "CloneURL" (bytes "https://x.com/a/b.git")).set
        "CommitID" (bytes "abc123")).set "Path" (bytes ".")) =
      some (bytes "/repos/git/https%3A$$x.com$a$b.git/commits/abc123/tree") ∧
    ∃ p, Router.URLTo NewRouter RouteRepoTreeEntry
        ((((Vars.empty.set "VCS" (bytes "git")).set "CloneURL"
          (bytes "https://x.com/a/b.git")).set "CommitID" (bytes "abc123")).set "Path"
          (bytes ".")) = some p ∧
      Router.Match NewRouter "GET" p = some (RouteRepoTreeEntry,
        (((Vars.empty.set "VCS" (bytes "git")).set "CloneURL"
          (bytes "https://x.com/a/b.git")).set "CommitID" (bytes "abc123")).set "Path"
          (bytes ".")) :=
  ⟨by decide,
    match_build_inverse RouteRepoTreeEntry _
      (ValidVars.tree (bytes "git") (bytes "https://x.com/a/b.git") (bytes "abc123") (bytes ".")
        (by decide) (by decide) (by decide) (by decide) (by decide))
      (by decide)⟩

/-- C9, as the claim states it, fails: the suffix `/a`, newline, `b` starts with `/`,
and the path made of a commit-tree prefix and this suffix matches no route at all,
so it does not match the tree-entry route. -/
theorem newline_suffix_counterexample :
    ([47, 97, 10, 98] : GoString).head? = some 47 ∧
    (Router.Match NewRouter "GET"
      (bytes "/repos/git/x/commits/c/tree" ++ [47, 97, 10, 98])).isNone = true := by
  decide

/-- C9, amended: for every method and path, at most one of the seven routes matches,
and a route that matches is the result of `Match`; every path made of
`/repos/{VCS}/{CloneURLEscaped}/commits/{CommitID}/tree` and of a suffix that is
empty, or starts with `/` and has no newline byte, matches the tree-entry route with
method `GET`, and no other route matches it, whatever the method. -/
theorem route_unambiguous (method : String) (path : GoString) :
    (∀ r1 ∈ NewRouter, ∀ r2 ∈ NewRouter, (r1.matchRequest method path).isSome = true →
      (r2.matchRequest method path).isSome = true → r1 = r2) ∧
    (∀ r ∈ NewRouter, ∀ v, r.matchRequest method path = some v →
      Router.Match NewRouter method path = some (r.name, v)) ∧
    (∀ vcs e c suffix : GoString, IsSegmentValue vcs → IsSegmentValue e → IsSegmentValue c →
      VarPattern.accepts .treeSuffix suffix = true →
      path = bytes "/repos/" ++ vcs ++ bytes "/" ++ e ++ bytes "/commits/" ++ c ++ bytes "/tree"
        ++ suffix →
      (Router.Match NewRouter "GET" path).map (fun m => m.1) = some RouteRepoTreeEntry ∧
      ∀ r ∈ NewRouter, r.name ≠ RouteRepoTreeEntry → ∀ m, r.matchRequest m path = none) := by
  have huniq : ∀ (m : String) (r1 : Route), r1 ∈ NewRouter → ∀ r2 ∈ NewRouter,
      (r1.matchRequest m path).isSome = true → (r2.matchRequest m path).isSome = true →
      r1 = r2 := by
    intro m r1 h1 r2 h2 hm1 hm2
    exact route_of_name r1 r2 h1 h2
      (by rw [name_of_match m path r1 h1 hm1, name_of_match m path r2 h2 hm2])
  refine ⟨huniq method, fun r hr v hv => Match_of_matchRequest method path r hr v hv, ?_⟩
  intro vcs e c suffix hvcs he hc hacc hpath
  have hs : (bytes "/commits/" ++ (c ++ (bytes "/tree" ++ suffix))) = [] ∨
      (bytes "/commits/" ++ (c ++ (bytes "/tree" ++ suffix))).head? = some 47 := by
    right; simp [bytes_commits]
  have hs2 : (bytes "/tree" ++ suffix) = [] ∨ (bytes "/tree" ++ suffix).head? = some 47 := by
    right; simp [bytes_tree]
  have hmatch : matchVars (repoPath ++ commitPath ++ [⟨bytes "/tree", "Path", .treeSuffix⟩])
      [] true path =
      some [("VCS", vcs), ("CloneURLEscaped", e), ("CommitID", c), ("Path", suffix)] := by
    rw [hpath]
    simp only [List.append_assoc]
    rw [matchVars_repoPath _ _ vcs _ _ hvcs he hs]
    unfold commitPath
    simp only [List.cons_append, List.nil_append]
    rw [matchVars_segment _ _ _ _ _ c _ hc hs2, matchVars_treeSuffix, if_pos hacc]
  have hmem : (⟨RouteRepoTreeEntry, ["GET"],
      ⟨repoPath ++ commitPath ++ [⟨bytes "/tree", "Path", .treeSuffix⟩], []⟩,
      true, [cleanTreeVars, unescapeRepoVars], [escapeRepoVars, prepareTreeVars]⟩ : Route)
      ∈ NewRouter := by simp [NewRouter]
  have htail : PathTemplate.tail
      ⟨repoPath ++ commitPath ++ [⟨bytes "/tree", "Path", .treeSuffix⟩], []⟩ true = [] := by
    decide
  have hreq : ∃ v, Route.matchRequest ⟨RouteRepoTreeEntry, ["GET"],
      ⟨repoPath ++ commitPath ++ [⟨bytes "/tree", "Path", .treeSuffix⟩], []⟩,
      true, [cleanTreeVars, unescapeRepoVars], [escapeRepoVars, prepareTreeVars]⟩ "GET" path
      = some v := by
    simp only [Route.matchRequest, List.mem_singleton, if_true, PathTemplate.matchPath, htail,
      hmatch]
    exact ⟨_, rfl⟩
  obtain ⟨v, hv⟩ := hreq
  constructor
  · rw [Match_of_matchRequest "GET" path _ hmem v hv]
    rfl
  · intro r hr hname m
    cases hrm : r.matchRequest m path with
    | none => rfl
    | some w =>
      exfalso
      apply hname
      have h1 := name_of_match m path r hr (by rw [hrm]; rfl)
      have h2 := name_of_match "GET" path _ hmem (by rw [hv]; rfl)
      rw [h1, ← h2]

end Vcsstore
